import Mathlib

/-!
Verification of the shuffle-log statistical pipeline
(`scripts/shuffle/parser.py` and `scripts/shuffle/stats.py`).

The Python code is shallowly embedded: lines of the log file are `String`s
(as produced by `readlines`), Python `dict`s are association lists built
with insertion-order semantics, integer counts are `Nat`, exact statistics
are computed over `ℚ`, and the sample standard deviation / chi-square
p-value live in `ℝ`.  Python operations that can raise (`dict[key]`,
list indexing, division by zero) are embedded as `Option`-valued
functions, `none` marking the raising run.
-/

namespace Shuffle

/-! ### Python string primitives (on `List Char`) -/

/-- Python `str.strip()`: drop whitespace from both ends. -/
def pyStrip (s : List Char) : List Char :=
  ((s.dropWhile Char.isWhitespace).reverse.dropWhile Char.isWhitespace).reverse

/-- Python `str.startswith(pat)`. -/
def pyStartsWith (s pat : List Char) : Bool :=
  pat.isPrefixOf s

/-- Python `pat in s` (substring containment). -/
def pyHasInfix (pat : List Char) : List Char → Bool
  | [] => pat.isEmpty
  | c :: rest => pat.isPrefixOf (c :: rest) || pyHasInfix pat rest

/-- Python `s.find(c)`: index of the first occurrence of `c`, `-1` if absent. -/
def pyFind (s : List Char) (c : Char) : Int :=
  match s.findIdx? (fun d => d == c) with
  | some i => (i : Int)
  | none => -1

/-- Python `s.rfind(c)`: index of the last occurrence of `c`, `-1` if absent. -/
def pyRFind (s : List Char) (c : Char) : Int :=
  match s.reverse.findIdx? (fun d => d == c) with
  | some i => (s.length : Int) - 1 - (i : Int)
  | none => -1

/-- Normalize a Python slice endpoint to an index in `[0, n]`
(negative indices count from the end, everything is clamped). -/
def pySliceIdx (n : Nat) (i : Int) : Nat :=
  if i < 0 then ((n : Int) + i).toNat else min i.toNat n

/-- Python `s[a:b]` slicing on character lists. -/
def pySlice (s : List Char) (a b : Int) : List Char :=
  (s.take (pySliceIdx s.length b)).drop (pySliceIdx s.length a)

/-- Helper for `pySplitWs`: accumulate the current (reversed) token. -/
def pySplitWsAux : List Char → List Char → List (List Char)
  | [], acc => if acc = [] then [] else [acc.reverse]
  | c :: cs, acc =>
    if c.isWhitespace then
      if acc = [] then pySplitWsAux cs [] else acc.reverse :: pySplitWsAux cs []
    else pySplitWsAux cs (c :: acc)

/-- Python `str.split()` with no argument: split on whitespace runs,
dropping empty tokens. -/
def pySplitWs (s : List Char) : List String :=
  (pySplitWsAux s []).map List.asString

/-! ### Python `dict` with insertion-order semantics -/

/-- A Python `dict` keyed by strings: an association list in insertion order. -/
abbrev Dict (α : Type) := List (String × α)

/-- Python `key in d`. -/
def dictContains (d : Dict α) (k : String) : Bool :=
  d.any (fun p => p.1 == k)

/-- Python `d[key]` as an `Option` (Python raises `KeyError` on `none`). -/
def dictGet (d : Dict α) (k : String) : Option α :=
  (d.find? (fun p => p.1 == k)).map (fun p => p.2)

/-- Python `d[key] = v`: overwrite in place if the key exists (keeping its
insertion position), otherwise append at the end. -/
def dictSet (d : Dict α) (k : String) (v : α) : Dict α :=
  if dictContains d k then d.map (fun p => if p.1 == k then (k, v) else p)
  else d ++ [(k, v)]

/-- The key list of a dict, in insertion order. -/
def dictKeys (d : Dict α) : List String :=
  d.map (fun p => p.1)

/-! ### The parser (`parser.py`, `parse_shuffle_file`) -/

/-- A section: a dict mapping each keyword to its per-position count vector. -/
abbrev Sec := Dict (List Nat)

/-- `parser.py` line 61: `{key: [0] * n for key in possibility_list}`. -/
def new_section (pl : List String) : Sec :=
  pl.foldl (fun d key => dictSet d key (List.replicate pl.length 0)) []

/-- `parser.py` lines 85–87 (and identically 45–47): the text between the
first `[` and the last `]` of a (stripped) line, stripped again. -/
def bracket_content (line : List Char) : List Char :=
  pyStrip (pySlice line (pyFind line '[' + 1) (pyRFind line ']'))

/-- `parser.py` lines 33–53: scan the header for the possibility list.
Stops at a comment line containing "start shuffle", and at the first line
starting with `l = [` (whose bracket content, split on whitespace, is the
possibility list; an empty content leaves the list empty). -/
def header_scan : List String → List String
  | [] => []
  | l :: ls =>
    if pyStrip l.toList = [] then header_scan ls
    else if pyStartsWith (pyStrip l.toList) "#".toList then
      if pyHasInfix "start shuffle".toList (pyStrip l.toList) then []
      else header_scan ls
    else if pyStartsWith (pyStrip l.toList) "l = [".toList then
      (if bracket_content (pyStrip l.toList) = [] then []
       else pySplitWs (bracket_content (pyStrip l.toList)))
    else header_scan ls

/-- `parser.py` lines 68–72: index of the line after the first line
containing "start shuffle" (raw, unstripped lines), `0` if none. -/
def start_index (lines : List String) : Nat :=
  match lines.findIdx? (fun l => pyHasInfix "start shuffle".toList l.toList) with
  | some i => i + 1
  | none => 0

/-- `parser.py` lines 97–98: `if key in current_section:
current_section[key][k] += 1`.  (In every reachable call `k` is below the
stored vector's length, so the `getD`/`set` reading cannot differ from
Python's checked indexing.) -/
def incr_at (sec : Sec) (key : String) (k : Nat) : Sec :=
  match dictGet sec key with
  | some v => dictSet sec key (v.set k (v.getD k 0 + 1))
  | none => sec

/-- `parser.py` lines 94–98: `for k in range(n): ...`, starting at
position `k0` (the loop itself starts at `0`). -/
def incr_go (sec : Sec) (k0 : Nat) : List String → Sec
  | [] => sec
  | it :: rest => incr_go (incr_at sec it k0) (k0 + 1) rest

/-- `parser.py` lines 94–98: record one accepted trial in a section. -/
def incr_items (sec : Sec) (items : List String) : Sec :=
  incr_go sec 0 items

/-- The parser's loop state: `sections`, `current_section`, `current_count`.
The sealed sections additionally carry the number of accepted trials each
absorbed (always `section_size` at sealing time); this instrumentation is
erased by `parse_shuffle_file` below. -/
structure ParseState where
  sections : List (Sec × Nat)
  current_section : Sec
  current_count : Nat
deriving Repr, DecidableEq

/-- The stripped-line candidate filter of `parser.py` lines 77–90: `some
items` iff the body loop reaches `items = content.split()` for this line. -/
def candidate_items (raw : String) : Option (List String) :=
  if pyStrip raw.toList = [] then none
  else if pyStartsWith (pyStrip raw.toList) "#".toList then none
  else if pyStartsWith (pyStrip raw.toList) "l = [".toList then
    (if bracket_content (pyStrip raw.toList) = [] then none
     else some (pySplitWs (bracket_content (pyStrip raw.toList))))
  else none

/-- `parser.py` lines 76–104: process one body line. -/
def process_line (pl : List String) (ssize : Nat) (st : ParseState) (raw : String) :
    ParseState :=
  match candidate_items raw with
  | none => st
  | some items =>
    if items.length ≠ pl.length then st
    else
      let cur := incr_items st.current_section items
      let cnt := st.current_count + 1
      if cnt = ssize then
        ⟨st.sections ++ [(cur, cnt)], new_section pl, 0⟩
      else
        ⟨st.sections, cur, cnt⟩

/-- `parser.py` lines 105–107: append the final section if it has any data. -/
def finalize (st : ParseState) : List (Sec × Nat) :=
  if 0 < st.current_count then st.sections ++ [(st.current_section, st.current_count)]
  else st.sections

/-- The sealed sections of `parse_shuffle_file`, each paired with the number
of accepted trials it absorbed. -/
def parse_shuffle_counted (lines : List String) (ssize : Nat) : List (Sec × Nat) :=
  let pl := header_scan lines
  if pl = [] then []
  else
    finalize ((lines.drop (start_index lines)).foldl (process_line pl ssize)
      ⟨[], new_section pl, 0⟩)

/-- `parser.py`, `parse_shuffle_file(file_path, section_size)`, with the
file contents given as its list of lines. -/
def parse_shuffle_file (lines : List String) (ssize : Nat) : List String × List Sec :=
  (header_scan lines, (parse_shuffle_counted lines ssize).map (fun p => p.1))

example : header_scan ["l = [A B]", "# start shuffle"] = ["A", "B"] := by decide

example : parse_shuffle_file ["l = [A B]", "# start shuffle", "l = [A B]", "l = [B A]"] 2 =
    (["A", "B"], [[("A", [1, 1]), ("B", [1, 1])]]) := by decide

example : parse_shuffle_file ["no header here"] 2 = ([], []) := by decide

/-! ### The analyzers (`stats.py`) -/

/-- `stats.py` line 18: one step of `compute_fixed_counts`
(`fixed[key] = section[key][i]`).  `none` models Python raising
(`KeyError` on a missing keyword, `IndexError` on a short vector). -/
def fixed_step (sec : Sec) (fixed : Dict Nat) (p : Nat × String) : Option (Dict Nat) :=
  match dictGet sec p.2 with
  | none => none
  | some v =>
    match v.get? p.1 with
    | none => none
    | some c => some (dictSet fixed p.2 c)

/-- `stats.py` lines 16–19: the per-section body of `compute_fixed_counts`
(`for i, key in enumerate(possibility_list): fixed[key] = section[key][i]`). -/
def fixed_of_section (sec : Sec) (pl : List String) : Option (Dict Nat) :=
  pl.enum.foldlM (fixed_step sec) []

/-- `stats.py` lines 14–20, `compute_fixed_counts`: per section, the count
of each keyword at its own index. -/
def compute_fixed_counts (sections : List Sec) (pl : List String) :
    Option (List (Dict Nat)) :=
  sections.mapM (fun sec => fixed_of_section sec pl)

/-- Python `max(xs)` on a nonempty list (callers guard emptiness). -/
def pyMax (xs : List ℚ) : ℚ :=
  match xs with
  | [] => 0
  | x :: rest => rest.foldl max x

/-- Python `min(xs)` on a nonempty list (callers guard emptiness). -/
def pyMin (xs : List ℚ) : ℚ :=
  match xs with
  | [] => 0
  | x :: rest => rest.foldl min x

/-- Python `max(xs)` over real values (for the std reduction). -/
noncomputable def pyMaxR (xs : List ℝ) : ℝ :=
  match xs with
  | [] => 0
  | x :: rest => rest.foldl max x

/-- Python `max(xs, key=lambda x: abs(x))`: the element of largest absolute
value, ties resolved in favour of the earliest element. -/
def pyMaxByAbs (xs : List ℚ) : ℚ :=
  match xs with
  | [] => 0
  | x :: rest => rest.foldl (fun acc y => if |acc| < |y| then y else acc) x

/-- Python `statistics.mean` (exact). -/
def pyMean (xs : List ℚ) : ℚ :=
  xs.sum / (xs.length : ℚ)

/-- The unbiased sample variance (divide by `count - 1`). -/
def sampleVar (xs : List ℚ) : ℚ :=
  (xs.map (fun x => (x - pyMean xs) ^ 2)).sum / ((xs.length : ℚ) - 1)

/-- Python `statistics.stdev`: square root of the sample variance. -/
noncomputable def pyStdev (xs : List ℚ) : ℝ :=
  Real.sqrt ((sampleVar xs : ℚ) : ℝ)

/-- The `{max, min, mean, std}` record of `compute_distribution_error_metrics`. -/
structure ErrorMetric where
  max : ℚ
  min : ℚ
  mean : ℚ
  std : ℝ

/-- `stats.py` lines 62–63: the error of one keyword at one position in one
section (`none` models `KeyError` / `IndexError`). -/
def error_of (sec : Sec) (e : ℚ) (key : String) (pos : Nat) : Option ℚ :=
  match dictGet sec key with
  | none => none
  | some v =>
    match v.get? pos with
    | none => none
    | some c => some ((c : ℚ) - e)

/-- `stats.py` lines 62–63: the error list of one keyword at one position,
across all sections. -/
def errors_at (sections : List Sec) (e : ℚ) (key : String) (pos : Nat) :
    Option (List ℚ) :=
  sections.mapM (fun sec => error_of sec e key pos)

/-- `stats.py` lines 54–85: the per-keyword body of
`compute_distribution_error_metrics`.  The four per-position lists are the
loop's `max_by_pos`, `min_by_pos`, `mean_by_pos`, `std_by_pos`. -/
noncomputable def metrics_for_key (sections : List Sec) (e : ℚ) (n : Nat) (key : String) :
    Option ErrorMetric :=
  ((List.range n).mapM (errors_at sections e key)).map (fun errLists =>
    let max_by_pos := errLists.map (fun es => if es ≠ [] then pyMax es else 0)
    let min_by_pos := errLists.map (fun es => if es ≠ [] then pyMin es else 0)
    let mean_by_pos := errLists.map (fun es => if es ≠ [] then pyMean es else 0)
    let std_by_pos : List ℝ :=
      errLists.map (fun es =>
        if es ≠ [] then (if 1 < es.length then pyStdev es else 0) else 0)
    { max := if max_by_pos ≠ [] then pyMax max_by_pos else 0,
      min := if min_by_pos ≠ [] then pyMin min_by_pos else 0,
      mean := if mean_by_pos ≠ [] then pyMaxByAbs mean_by_pos else 0,
      std := if std_by_pos ≠ [] then pyMaxR std_by_pos else 0 })

/-- `stats.py` lines 23–86, `compute_distribution_error_metrics`.  With an
empty possibility list Python raises `ZeroDivisionError` at line 50
(`expected_per_cell = section_size / n`), embedded as `none`. -/
noncomputable def compute_distribution_error_metrics
    (sections : List Sec) (ssize : Nat) (pl : List String) :
    Option (Dict ErrorMetric) :=
  if pl.length = 0 then none
  else
    pl.foldlM (fun m key =>
      (metrics_for_key sections ((ssize : ℚ) / (pl.length : ℚ)) pl.length key).map
        (fun em => dictSet m key em)) []

/-- The one-way chi-square statistic `Σ (obs - exp)² / exp`. -/
def chi2_stat (f_obs f_exp : List ℚ) : ℚ :=
  ((f_obs.zip f_exp).map (fun p => (p.1 - p.2) ^ 2 / p.2)).sum

/-- The survival function of the chi-square distribution with `df` degrees
of freedom: one minus the CDF of the Gamma distribution with shape `df / 2`
and rate `1 / 2`. -/
noncomputable def chi2_sf (df : Nat) (x : ℝ) : ℝ :=
  1 - ProbabilityTheory.gammaCDFReal ((df : ℝ) / 2) (1 / 2) x

/-- The `{chi2, p_value}` record returned by the chi-square analyzer. -/
structure ChiResult where
  chi2 : ℚ
  p_value : ℝ

/-- Model of `scipy.stats.chisquare(f_obs, f_exp)` per its documented
contract: the statistic `Σ (obs - exp)² / exp` with `len(f_obs) - 1`
degrees of freedom, the p-value being the chi-square survival function at
the statistic. -/
noncomputable def chisquare (f_obs f_exp : List ℚ) : ChiResult :=
  { chi2 := chi2_stat f_obs f_exp,
    p_value := chi2_sf (f_obs.length - 1) ((chi2_stat f_obs f_exp : ℚ) : ℝ) }

/-- `stats.py` lines 89–107, `compute_chi_square`.  With an empty
possibility list Python raises `ZeroDivisionError` at line 99, embedded as
`none`; a missing keyword in a section raises `KeyError`, likewise `none`. -/
noncomputable def compute_chi_square (sections : List Sec) (ssize : Nat) (pl : List String) :
    Option (Dict ChiResult) :=
  if pl.length = 0 then none
  else
    pl.foldlM
      (fun res key =>
        (sections.mapM (fun sec => dictGet sec key)).map
          (fun vecs =>
            dictSet res key
              (chisquare (vecs.flatten.map (fun (c : Nat) => (c : ℚ)))
                (List.replicate vecs.flatten.length ((ssize : ℚ) / (pl.length : ℚ))))))
      []

example : compute_fixed_counts [] [] = some [] := by decide

/-! ### Derived observation functions and predicates -/

/-- The count stored for `key` at position `k` (0 when absent). -/
def cell (sec : Sec) (key : String) (k : Nat) : Nat :=
  ((dictGet sec key).getD []).getD k 0

/-- The count at position `k` summed over all rows of the section. -/
def colSum (sec : Sec) (k : Nat) : Nat :=
  (sec.map (fun p => p.2.getD k 0)).sum

/-- The shape every live section keeps: the keys of a fresh section (in
particular one row per distinct symbol of the possibility list) and
per-position vectors of length `n`. -/
def SecShape (pl : List String) (sec : Sec) : Prop :=
  dictKeys sec = dictKeys (new_section pl) ∧ ∀ p ∈ sec, p.2.length = pl.length

instance decSecShape (pl : List String) (sec : Sec) : Decidable (SecShape pl sec) :=
  inferInstanceAs
    (Decidable ((dictKeys sec = dictKeys (new_section pl)) ∧
      ∀ p ∈ sec, p.2.length = pl.length))

/-- Whether recording a trial `items` (positions offset by `k0`) touches the
cell of symbol `sym` at position `j`. -/
def hitCell (pl items : List String) (k0 : Nat) (sym : String) (j : Nat) : Bool :=
  decide (k0 ≤ j) && decide (j - k0 < items.length) &&
    (items.getD (j - k0) "" == sym) && decide (items.getD (j - k0) "" ∈ pl) &&
    decide (j < pl.length)

/-- Whether recording a trial `items` (positions offset by `k0`) increments
any cell in column `j`: the token at that position must be known. -/
def hitCol (pl items : List String) (k0 : Nat) (j : Nat) : Bool :=
  decide (k0 ≤ j) && decide (j - k0 < items.length) &&
    decide (items.getD (j - k0) "" ∈ pl) && decide (j < pl.length)

/-- The body loop accepts this line as a trial: it is a candidate and its
token count matches the possibility list. -/
def is_accepted (pl : List String) (raw : String) : Bool :=
  match candidate_items raw with
  | some items => items.length == pl.length
  | none => false

/-- Number of lines accepted as trials. -/
def accepted_count (pl : List String) (lines : List String) : Nat :=
  lines.countP (is_accepted pl)

/-- This line, if accepted as a trial, consists of known tokens only. -/
def trial_known (pl : List String) (raw : String) : Bool :=
  match candidate_items raw with
  | some items =>
    decide (items.length ≠ pl.length) || items.all (fun tok => decide (tok ∈ pl))
  | none => true

/-- Every accepted trial of the body consists of known tokens only. -/
def all_trials_known (pl : List String) (lines : List String) : Prop :=
  ∀ raw ∈ lines, trial_known pl raw = true

instance decAllTrialsKnown (pl lines : List String) :
    Decidable (all_trials_known pl lines) :=
  inferInstanceAs (Decidable (∀ raw ∈ lines, trial_known pl raw = true))

/-- A line the header scan passes over without stopping: blank, a comment
without the start marker, or a non-candidate line. -/
def header_skip (raw : String) : Prop :=
  pyStrip raw.toList = [] ∨
    (pyStartsWith (pyStrip raw.toList) "#".toList = true ∧
      pyHasInfix "start shuffle".toList (pyStrip raw.toList) = false) ∨
    (pyStartsWith (pyStrip raw.toList) "#".toList = false ∧
      pyStartsWith (pyStrip raw.toList) "l = [".toList = false)

/-! ### Specification-side definitions (from the spec's words, §4.3/§4.4,
for comparison with the source embedding) -/

/-- The stored count as a rational. -/
def cellQ (sec : Sec) (key : String) (j : Nat) : ℚ :=
  (cell sec key j : ℚ)

/-- Spec §4.3 step 1: the signed error series of one symbol at one
position, across all sections. -/
def spec_series (sections : List Sec) (e : ℚ) (key : String) (j : Nat) : List ℚ :=
  sections.map (fun sec => cellQ sec key j - e)

/-- Spec §4.3 step 2: the per-position maximum error (0 for no sections). -/
def spec_posMax (sections : List Sec) (e : ℚ) (key : String) (j : Nat) : ℚ :=
  ((spec_series sections e key j).max?).getD 0

/-- Spec §4.3 step 2: the per-position minimum error (0 for no sections). -/
def spec_posMin (sections : List Sec) (e : ℚ) (key : String) (j : Nat) : ℚ :=
  ((spec_series sections e key j).min?).getD 0

/-- Spec §4.3 step 2: the per-position arithmetic mean error. -/
def spec_posMean (sections : List Sec) (e : ℚ) (key : String) (j : Nat) : ℚ :=
  (spec_series sections e key j).sum / ((spec_series sections e key j).length : ℚ)

/-- Spec §4.3 step 2: the per-position sample standard deviation, dividing
by `count - 1`, and `0` when fewer than two samples exist. -/
noncomputable def spec_posStd (sections : List Sec) (e : ℚ) (key : String) (j : Nat) : ℝ :=
  if 2 ≤ sections.length then
    Real.sqrt
      (((((spec_series sections e key j).map
            (fun x => (x - spec_posMean sections e key j) ^ 2)).sum /
          ((sections.length : ℚ) - 1)) : ℚ) : ℝ)
  else 0

/-- Spec §4.3 step 3: `overall_max` = max over positions of per-position max. -/
def spec_overallMax (sections : List Sec) (e : ℚ) (key : String) (n : Nat) : ℚ :=
  (((List.range n).map (spec_posMax sections e key)).max?).getD 0

/-- Spec §4.3 step 3: `overall_min` = min over positions of per-position min. -/
def spec_overallMin (sections : List Sec) (e : ℚ) (key : String) (n : Nat) : ℚ :=
  (((List.range n).map (spec_posMin sections e key)).min?).getD 0

/-- Spec §4.3 step 3: `overall_std` = max over positions of per-position std. -/
noncomputable def spec_overallStd (sections : List Sec) (e : ℚ) (key : String) (n : Nat) : ℝ :=
  (((List.range n).map (spec_posStd sections e key)).max?).getD 0

/-- Spec §4.4: one symbol's per-position counts flattened across all
sections, as rationals. -/
def spec_observed (sections : List Sec) (key : String) : List ℚ :=
  ((sections.map (fun sec => (dictGet sec key).getD [])).flatten).map (fun (c : Nat) => (c : ℚ))

/-! ### Invariants of the parser's loop state -/

/-- Shape and column-sum bound carried through the body scan: the current
section is well-shaped with column sums bounded by the running count, and
every sealed section is well-shaped with column sums bounded by its
recorded trial count. -/
def StInv (pl : List String) (st : ParseState) : Prop :=
  SecShape pl st.current_section ∧
  (∀ j, colSum st.current_section j ≤ st.current_count) ∧
  ∀ p ∈ st.sections, SecShape pl p.1 ∧ ∀ j, colSum p.1 j ≤ p.2

/-- Column-sum equality, which holds as long as every accepted trial
consists of known tokens only. -/
def StEq (pl : List String) (st : ParseState) : Prop :=
  (∀ j < pl.length, colSum st.current_section j = st.current_count) ∧
  ∀ p ∈ st.sections, ∀ j < pl.length, colSum p.1 j = p.2

/-- Counting invariant: `A` accepted trials so far put `A / sectionSize`
sealed sections (each of exactly `sectionSize` trials) in the output and
leave `A % sectionSize` trials in the current section. -/
def StCnt (ssize A : Nat) (st : ParseState) : Prop :=
  st.sections.length = A / ssize ∧ st.current_count = A % ssize ∧
  ∀ p ∈ st.sections, p.2 = ssize

/-! ### Dictionary lemmas -/

theorem dictContains_iff {α : Type} {d : Dict α} {k : String} :
    dictContains d k = true ↔ k ∈ dictKeys d := by
  unfold dictContains dictKeys
  rw [List.any_eq_true]
  constructor
  · rintro ⟨p, hp, hpk⟩
    exact List.mem_map.mpr ⟨p, hp, by simpa using hpk⟩
  · intro hm
    rcases List.mem_map.mp hm with ⟨p, hp, hpk⟩
    exact ⟨p, hp, by simpa using hpk⟩

theorem dictGet_nil {α : Type} (k : String) : dictGet ([] : Dict α) k = none := rfl

theorem dictGet_cons {α : Type} (p : String × α) (rest : Dict α) (k : String) :
    dictGet (p :: rest) k = if p.1 == k then some p.2 else dictGet rest k := by
  unfold dictGet
  rw [List.find?_cons]
  cases hp : p.1 == k
  · simp [hp]
  · simp [hp]

theorem dictContains_cons {α : Type} (p : String × α) (rest : Dict α) (k : String) :
    dictContains (p :: rest) k = (p.1 == k || dictContains rest k) := by
  simp [dictContains]

theorem dictGet_append {α : Type} (d1 d2 : Dict α) (k : String) :
    dictGet (d1 ++ d2) k =
      match dictGet d1 k with
      | some v => some v
      | none => dictGet d2 k := by
  induction d1 with
  | nil => simp [dictGet_nil]
  | cons p rest ih =>
    rw [List.cons_append, dictGet_cons, dictGet_cons]
    cases hp : p.1 == k
    · simp [ih]
    · simp

theorem dictGet_isSome_iff {α : Type} {d : Dict α} {k : String} :
    (dictGet d k).isSome = true ↔ dictContains d k = true := by
  induction d with
  | nil => simp [dictGet_nil, dictContains]
  | cons p rest ih =>
    rw [dictGet_cons, dictContains_cons]
    cases hp : p.1 == k
    · simpa using ih
    · simp

theorem dictGet_eq_none_of_not_contains {α : Type} {d : Dict α} {k : String}
    (h : dictContains d k = false) : dictGet d k = none := by
  cases hg : dictGet d k with
  | none => rfl
  | some v =>
    have : dictContains d k = true := dictGet_isSome_iff.mp (by simp [hg])
    rw [this] at h
    cases h

theorem dictGet_mapSet {α : Type} (d : Dict α) (k : String) (v : α)
    (h : dictContains d k = true) :
    dictGet (d.map (fun p => if p.1 == k then (k, v) else p)) k = some v := by
  induction d with
  | nil => simp [dictContains] at h
  | cons p rest ih =>
    rw [List.map_cons, dictGet_cons]
    by_cases hp : (p.1 == k) = true
    · simp [hp]
    · rw [dictContains_cons] at h
      simp only [Bool.or_eq_true] at h
      rcases h with h | h
      · exact absurd h hp
      · simp only [Bool.not_eq_true] at hp
        simp [hp]
        simpa using ih h

theorem dictGet_dictSet_same {α : Type} (d : Dict α) (k : String) (v : α) :
    dictGet (dictSet d k v) k = some v := by
  unfold dictSet
  by_cases h : dictContains d k = true
  · rw [if_pos h]
    exact dictGet_mapSet d k v h
  · rw [if_neg h, dictGet_append,
      dictGet_eq_none_of_not_contains (Bool.eq_false_iff.mpr h), dictGet_cons]
    simp

theorem dictGet_dictSet_ne {α : Type} (d : Dict α) (k k' : String) (v : α) (h : k' ≠ k) :
    dictGet (dictSet d k v) k' = dictGet d k' := by
  have hne : ¬ (k = k') := fun hc => h hc.symm
  unfold dictSet
  by_cases hc : dictContains d k = true
  · rw [if_pos hc]
    clear hc
    induction d with
    | nil => simp
    | cons p rest ih =>
      rw [List.map_cons, dictGet_cons, dictGet_cons]
      by_cases hp : (p.1 == k) = true
      · have hp1 : p.1 = k := by simpa using hp
        have hpk : ¬ (p.1 = k') := by rw [hp1]; exact hne
        simp [hp, hne, hpk]
        simpa using ih
      · simp only [Bool.not_eq_true] at hp
        by_cases hq : (p.1 == k') = true
        · simp [hp, hq]
        · simp only [Bool.not_eq_true] at hq
          simp [hp, hq]
          simpa using ih
  · rw [if_neg hc, dictGet_append]
    cases hg : dictGet d k' with
    | some w => simp
    | none =>
      rw [dictGet_cons]
      simp [hne, dictGet_nil]

theorem dictKeys_dictSet_of_contains {α : Type} {d : Dict α} {k : String} (v : α)
    (h : dictContains d k = true) : dictKeys (dictSet d k v) = dictKeys d := by
  unfold dictSet
  rw [if_pos h]
  unfold dictKeys
  rw [List.map_map]
  refine List.map_congr_left (fun p _ => ?_)
  by_cases hp : (p.1 == k) = true
  · have hp1 : p.1 = k := by simpa using hp
    simp [hp, hp1]
  · have hp1 : ¬ (p.1 = k) := by simpa using hp
    simp [hp1]

theorem dictKeys_dictSet_of_not {α : Type} {d : Dict α} {k : String} (v : α)
    (h : dictContains d k = false) : dictKeys (dictSet d k v) = dictKeys d ++ [k] := by
  unfold dictSet
  rw [if_neg (by simp [h])]
  simp [dictKeys]

theorem mem_dictSet {α : Type} {d : Dict α} {k : String} {v : α} {p : String × α}
    (h : p ∈ dictSet d k v) : p ∈ d ∨ p = (k, v) := by
  unfold dictSet at h
  split at h
  · rcases List.mem_map.mp h with ⟨q, hq, hqe⟩
    by_cases hqk : q.1 == k
    · right
      simp [hqk] at hqe
      exact hqe.symm
    · left
      simp [hqk] at hqe
      exact hqe ▸ hq
  · rcases List.mem_append.mp h with h1 | h1
    · exact Or.inl h1
    · right
      simpa using h1

theorem dictGet_some_mem {α : Type} {d : Dict α} {k : String} {v : α}
    (h : dictGet d k = some v) : ∃ p ∈ d, p.1 = k ∧ p.2 = v := by
  unfold dictGet at h
  rcases Option.map_eq_some'.mp h with ⟨p, hp, hpv⟩
  exact ⟨p, List.mem_of_find?_eq_some hp, by simpa using List.find?_some hp, hpv⟩

theorem dictGet_foldl_dictSet {α : Type} (G : String → α) (pl : List String) (d0 : Dict α)
    (k : String) :
    dictGet (pl.foldl (fun d key => dictSet d key (G key)) d0) k =
      if k ∈ pl then some (G k) else dictGet d0 k := by
  induction pl generalizing d0 with
  | nil => simp
  | cons x xs ih =>
    rw [List.foldl_cons, ih]
    by_cases hx : k ∈ xs
    · simp [hx]
    · by_cases hk : k = x
      · subst hk
        simp [hx, dictGet_dictSet_same]
      · simp [hx, hk, dictGet_dictSet_ne _ _ _ _ hk]

theorem dictKeys_foldl_nodup {α : Type} (G : String → α) (pl : List String) (d0 : Dict α)
    (h0 : (dictKeys d0).Nodup) :
    (dictKeys (pl.foldl (fun d key => dictSet d key (G key)) d0)).Nodup := by
  induction pl generalizing d0 with
  | nil => exact h0
  | cons x xs ih =>
    rw [List.foldl_cons]
    refine ih _ ?_
    by_cases hc : dictContains d0 x = true
    · rw [dictKeys_dictSet_of_contains _ hc]
      exact h0
    · rw [dictKeys_dictSet_of_not _ (by simpa using hc)]
      have hx : x ∉ dictKeys d0 := fun hm => hc (dictContains_iff.mpr hm)
      simpa [List.nodup_append] using ⟨h0, hx⟩

theorem foldl_dictSet_eq_map {α : Type} (G : String → α) (pl q : List String)
    (h : (q ++ pl).Nodup) :
    pl.foldl (fun d key => dictSet d key (G key)) (q.map (fun key => (key, G key))) =
      (q ++ pl).map (fun key => (key, G key)) := by
  induction pl generalizing q with
  | nil => simp
  | cons x xs ih =>
    rw [List.foldl_cons]
    have hxq : x ∉ q := by
      intro hm
      rcases List.nodup_append.mp h with ⟨-, -, hdisj⟩
      exact hdisj hm (by simp)
    have hnc : dictContains (q.map (fun key => (key, G key))) x = false := by
      rw [Bool.eq_false_iff]
      intro hc
      rcases dictContains_iff.mp hc with hm
      simp only [dictKeys, List.map_map] at hm
      exact hxq (by simpa using hm)
    have hset : dictSet (q.map (fun key => (key, G key))) x (G x) =
        (q ++ [x]).map (fun key => (key, G key)) := by
      unfold dictSet
      rw [if_neg (by simp [hnc])]
      simp
    rw [hset]
    have h2 : ((q ++ [x]) ++ xs).Nodup := by
      simpa using h
    simpa using ih (q ++ [x]) h2

/-! ### Fresh sections and section shape -/

theorem dictGet_new_section (pl : List String) (k : String) :
    dictGet (new_section pl) k =
      if k ∈ pl then some (List.replicate pl.length 0) else none :=
  dictGet_foldl_dictSet (fun _ => List.replicate pl.length 0) pl [] k

theorem dictKeys_new_section_nodup (pl : List String) :
    (dictKeys (new_section pl)).Nodup :=
  dictKeys_foldl_nodup (fun _ => List.replicate pl.length 0) pl [] (by simp [dictKeys])

theorem new_section_eq_map {pl : List String} (h : pl.Nodup) :
    new_section pl = pl.map (fun key => (key, List.replicate pl.length 0)) :=
  foldl_dictSet_eq_map (fun _ => List.replicate pl.length 0) pl [] (by simpa using h)

theorem dictKeys_new_section_of_nodup {pl : List String} (h : pl.Nodup) :
    dictKeys (new_section pl) = pl := by
  rw [new_section_eq_map h]
  unfold dictKeys
  rw [List.map_map]
  have : ((fun p => p.1) ∘ fun key => (key, List.replicate pl.length 0)) =
      (fun (key : String) => key) := rfl
  rw [this, List.map_id']

theorem mem_dictKeys_new_section {pl : List String} {k : String} :
    k ∈ dictKeys (new_section pl) ↔ k ∈ pl := by
  rw [← dictContains_iff, ← dictGet_isSome_iff, dictGet_new_section]
  by_cases h : k ∈ pl
  · simp [h]
  · simp [h]

theorem mem_foldl_dictSet_const {α : Type} (c : α) (pl : List String) (d0 : Dict α)
    (h0 : ∀ q ∈ d0, q.2 = c) :
    ∀ p ∈ pl.foldl (fun d key => dictSet d key c) d0, p.2 = c := by
  induction pl generalizing d0 with
  | nil => exact h0
  | cons x xs ih =>
    rw [List.foldl_cons]
    refine ih _ (fun q hq => ?_)
    rcases mem_dictSet hq with hq1 | rfl
    · exact h0 q hq1
    · rfl

theorem mem_new_section_val {pl : List String} {p : String × List Nat}
    (hp : p ∈ new_section pl) : p.2 = List.replicate pl.length 0 :=
  mem_foldl_dictSet_const (List.replicate pl.length 0) pl [] (by simp) p hp

theorem SecShape_new_section (pl : List String) : SecShape pl (new_section pl) :=
  ⟨rfl, fun p hp => by rw [mem_new_section_val hp]; simp⟩

theorem secShape_contains_iff_mem {pl : List String} {sec : Sec} (h : SecShape pl sec)
    (k : String) : dictContains sec k = true ↔ k ∈ pl := by
  rw [dictContains_iff, h.1, mem_dictKeys_new_section]

theorem secShape_keys_nodup {pl : List String} {sec : Sec} (h : SecShape pl sec) :
    (dictKeys sec).Nodup := by
  rw [h.1]
  exact dictKeys_new_section_nodup pl

/-! ### Cells and column sums -/

theorem cell_eq_of_get {sec : Sec} {key : String} {v : List Nat}
    (h : dictGet sec key = some v) (j : Nat) : cell sec key j = v.getD j 0 := by
  simp [cell, h]

theorem cell_of_none {sec : Sec} {key : String} (h : dictGet sec key = none) (j : Nat) :
    cell sec key j = 0 := by
  simp [cell, h]

theorem cell_new_section (pl : List String) (key : String) (j : Nat) :
    cell (new_section pl) key j = 0 := by
  rw [cell, dictGet_new_section]
  by_cases h : key ∈ pl
  · simp [h]
  · simp [h]

theorem getD_set (v : List Nat) (k j x : Nat) :
    (v.set k x).getD j 0 = if k = j ∧ k < v.length then x else v.getD j 0 := by
  induction v generalizing k j with
  | nil => simp
  | cons a t ih =>
    cases k with
    | zero =>
      cases j with
      | zero => simp
      | succ m => simp
    | succ s =>
      cases j with
      | zero => simp
      | succ m =>
        rw [List.set_cons_succ, List.getD_cons_succ, List.getD_cons_succ, ih]
        by_cases hc : s = m ∧ s < t.length
        · rw [if_pos hc, if_pos ⟨by omega, by simpa using hc.2⟩]
        · rw [if_neg hc, if_neg (by simpa [Nat.succ_lt_succ_iff] using hc)]

theorem colSum_nil (j : Nat) : colSum [] j = 0 := rfl

theorem colSum_cons (p : String × List Nat) (rest : Sec) (j : Nat) :
    colSum (p :: rest) j = p.2.getD j 0 + colSum rest j := by
  simp [colSum]

theorem map_set_id {α : Type} {d : Dict α} {k : String} (h : k ∉ dictKeys d) (v : α) :
    d.map (fun p => if p.1 == k then (k, v) else p) = d := by
  have : d.map (fun p => if p.1 == k then (k, v) else p) = d.map id := by
    refine List.map_congr_left (fun p hp => ?_)
    have hne : ¬ (p.1 = k) := fun hc => h (hc ▸ List.mem_map.mpr ⟨p, hp, rfl⟩)
    simp [hne]
  rw [this, List.map_id]

theorem colSum_dictSet {sec : Sec} {key : String} {v : List Nat} (v' : List Nat)
    (hn : (dictKeys sec).Nodup) (hv : dictGet sec key = some v) (j : Nat) :
    colSum (dictSet sec key v') j + v.getD j 0 = colSum sec j + v'.getD j 0 := by
  induction sec with
  | nil => simp [dictGet_nil] at hv
  | cons p rest ih =>
    have hcon : dictContains (p :: rest) key = true :=
      dictGet_isSome_iff.mp (by simp [hv])
    unfold dictSet
    rw [if_pos hcon, List.map_cons]
    by_cases hp : (p.1 == key) = true
    · have hp1 : p.1 = key := by simpa using hp
      have hkeys : key ∉ dictKeys rest := by
        have := hn
        rw [dictKeys] at this
        simpa [hp1, dictKeys] using (List.nodup_cons.mp this).1
      rw [map_set_id hkeys, if_pos hp]
      have hvp : v = p.2 := by
        rw [dictGet_cons, if_pos hp] at hv
        exact (Option.some_injective _ hv).symm
      rw [colSum_cons, colSum_cons, hvp,
        show ((key, v') : String × List Nat).2 = v' from rfl]
      omega
    · have hpf : (p.1 == key) = false := by simpa using hp
      have hv' : dictGet rest key = some v := by
        rw [dictGet_cons, hpf] at hv
        simpa using hv
      have hcon' : dictContains rest key = true :=
        dictGet_isSome_iff.mp (by simp [hv'])
      have hn' : (dictKeys rest).Nodup := by
        rw [dictKeys] at hn
        exact (List.nodup_cons.mp (by simpa [dictKeys] using hn)).2
      have ihr := ih hn' hv'
      unfold dictSet at ihr
      rw [if_pos hcon'] at ihr
      rw [hpf]
      simp only [Bool.false_eq_true, if_false]
      rw [colSum_cons, colSum_cons]
      omega

/-! ### Effect of recording one trial -/

theorem SecShape_incr_at {pl : List String} {sec : Sec} (h : SecShape pl sec)
    (key : String) (k : Nat) : SecShape pl (incr_at sec key k) := by
  unfold incr_at
  cases hg : dictGet sec key with
  | none => exact h
  | some v =>
    have hc : dictContains sec key = true := dictGet_isSome_iff.mp (by simp [hg])
    refine ⟨?_, ?_⟩
    · rw [dictKeys_dictSet_of_contains _ hc]
      exact h.1
    · intro p hp
      rcases mem_dictSet hp with hp1 | hpe
      · exact h.2 p hp1
      · rcases dictGet_some_mem hg with ⟨q, hq, -, hqv⟩
        have hv : v.length = pl.length := by rw [← hqv]; exact h.2 q hq
        rw [hpe]
        simpa [List.length_set] using hv

theorem cell_incr_at {pl : List String} {sec : Sec} (h : SecShape pl sec)
    (key sym : String) (k j : Nat) :
    cell (incr_at sec key k) sym j =
      cell sec sym j + (if sym = key ∧ key ∈ pl ∧ j = k ∧ k < pl.length then 1 else 0) := by
  cases hg : dictGet sec key with
  | none =>
    have hrw : incr_at sec key k = sec := by simp [incr_at, hg]
    have hkey : key ∉ pl := by
      intro hm
      have hc := (secShape_contains_iff_mem h key).mpr hm
      have hs := dictGet_isSome_iff.mpr hc
      rw [hg] at hs
      simp at hs
    rw [hrw, if_neg (fun hx => hkey hx.2.1)]
    omega
  | some v =>
    have hrw : incr_at sec key k = dictSet sec key (v.set k (v.getD k 0 + 1)) := by
      simp [incr_at, hg]
    rw [hrw]
    rcases dictGet_some_mem hg with ⟨q, hq, -, hqv⟩
    have hvlen : v.length = pl.length := by rw [← hqv]; exact h.2 q hq
    have hkey : key ∈ pl :=
      (secShape_contains_iff_mem h key).mp (dictGet_isSome_iff.mp (by simp [hg]))
    by_cases hsym : sym = key
    · subst hsym
      rw [cell_eq_of_get (dictGet_dictSet_same sec sym _) j, cell_eq_of_get hg j, getD_set]
      by_cases hc : k = j ∧ k < v.length
      · obtain ⟨rfl, hklen⟩ := hc
        rw [if_pos ⟨rfl, hklen⟩, if_pos ⟨rfl, hkey, rfl, by rw [← hvlen]; exact hklen⟩]
      · rw [if_neg hc, if_neg (fun hx => hc ⟨hx.2.2.1.symm, by rw [hvlen]; exact hx.2.2.2⟩)]
        omega
    · have hgs : dictGet (dictSet sec key (v.set k (v.getD k 0 + 1))) sym = dictGet sec sym :=
        dictGet_dictSet_ne _ _ _ _ hsym
      unfold cell
      rw [hgs, if_neg (fun hx => hsym hx.1)]
      omega

theorem colSum_incr_at {pl : List String} {sec : Sec} (h : SecShape pl sec)
    (key : String) (k j : Nat) :
    colSum (incr_at sec key k) j =
      colSum sec j + (if key ∈ pl ∧ j = k ∧ k < pl.length then 1 else 0) := by
  cases hg : dictGet sec key with
  | none =>
    have hrw : incr_at sec key k = sec := by simp [incr_at, hg]
    have hkey : key ∉ pl := by
      intro hm
      have hc := (secShape_contains_iff_mem h key).mpr hm
      have hs := dictGet_isSome_iff.mpr hc
      rw [hg] at hs
      simp at hs
    rw [hrw, if_neg (fun hx => hkey hx.1)]
    omega
  | some v =>
    have hrw : incr_at sec key k = dictSet sec key (v.set k (v.getD k 0 + 1)) := by
      simp [incr_at, hg]
    rw [hrw]
    rcases dictGet_some_mem hg with ⟨q, hq, -, hqv⟩
    have hvlen : v.length = pl.length := by rw [← hqv]; exact h.2 q hq
    have hkey : key ∈ pl :=
      (secShape_contains_iff_mem h key).mp (dictGet_isSome_iff.mp (by simp [hg]))
    have hsum := colSum_dictSet (v.set k (v.getD k 0 + 1)) (secShape_keys_nodup h) hg j
    rw [getD_set] at hsum
    by_cases hc : k = j ∧ k < v.length
    · rw [if_pos hc] at hsum
      rw [if_pos ⟨hkey, hc.1.symm, by rw [← hvlen]; exact hc.2⟩]
      obtain ⟨rfl, -⟩ := hc
      omega
    · rw [if_neg hc] at hsum
      rw [if_neg (fun hx => hc ⟨hx.2.1.symm, by rw [hvlen]; exact hx.2.2⟩)]
      omega

theorem SecShape_incr_go {pl : List String} :
    ∀ (items : List String) (sec : Sec) (k0 : Nat), SecShape pl sec →
      SecShape pl (incr_go sec k0 items) := by
  intro items
  induction items with
  | nil => intro sec k0 h; exact h
  | cons it rest ih =>
    intro sec k0 h
    exact ih (incr_at sec it k0) (k0 + 1) (SecShape_incr_at h it k0)

theorem cell_incr_go {pl : List String} (sym : String) :
    ∀ (items : List String) (sec : Sec) (k0 j : Nat), SecShape pl sec →
      cell (incr_go sec k0 items) sym j =
        cell sec sym j +
          (if k0 ≤ j ∧ j - k0 < items.length ∧ items.getD (j - k0) "" = sym ∧
              sym ∈ pl ∧ j < pl.length then 1 else 0) := by
  intro items
  induction items with
  | nil =>
    intro sec k0 j h
    rw [incr_go, if_neg (fun hx => absurd hx.2.1 (by simp))]
    omega
  | cons it rest ih =>
    intro sec k0 j h
    rw [incr_go, ih (incr_at sec it k0) (k0 + 1) j (SecShape_incr_at h it k0),
      cell_incr_at h it sym k0 j]
    have hAC : (sym = it ∧ it ∈ pl ∧ j = k0 ∧ k0 < pl.length) →
        (k0 ≤ j ∧ j - k0 < (it :: rest).length ∧ (it :: rest).getD (j - k0) "" = sym ∧
          sym ∈ pl ∧ j < pl.length) := by
      rintro ⟨h1, h2, h3, h4⟩
      have hz : j - k0 = 0 := by omega
      refine ⟨by omega, by simp [hz], ?_, h1 ▸ h2, by omega⟩
      rw [hz]
      simpa using h1.symm
    have hRC : (k0 + 1 ≤ j ∧ j - (k0 + 1) < rest.length ∧
        rest.getD (j - (k0 + 1)) "" = sym ∧ sym ∈ pl ∧ j < pl.length) →
        (k0 ≤ j ∧ j - k0 < (it :: rest).length ∧ (it :: rest).getD (j - k0) "" = sym ∧
          sym ∈ pl ∧ j < pl.length) := by
      rintro ⟨h1, h2, h3, h4, h5⟩
      have hidx : j - k0 = (j - (k0 + 1)) + 1 := by omega
      refine ⟨by omega, by simp [hidx]; omega, ?_, h4, h5⟩
      rw [hidx, List.getD_cons_succ]
      exact h3
    have hCAR : (k0 ≤ j ∧ j - k0 < (it :: rest).length ∧
        (it :: rest).getD (j - k0) "" = sym ∧ sym ∈ pl ∧ j < pl.length) →
        (sym = it ∧ it ∈ pl ∧ j = k0 ∧ k0 < pl.length) ∨
          (k0 + 1 ≤ j ∧ j - (k0 + 1) < rest.length ∧
            rest.getD (j - (k0 + 1)) "" = sym ∧ sym ∈ pl ∧ j < pl.length) := by
      rintro ⟨h1, h2, h3, h4, h5⟩
      by_cases hjk : j = k0
      · left
        have hz : j - k0 = 0 := by omega
        rw [hz] at h3
        have h3' : it = sym := by simpa using h3
        exact ⟨h3'.symm, h3' ▸ h4, hjk, by omega⟩
      · right
        have hidx : j - k0 = (j - (k0 + 1)) + 1 := by omega
        rw [hidx, List.getD_cons_succ] at h3
        have h2' : j - (k0 + 1) < rest.length := by
          rw [hidx] at h2
          simpa [Nat.succ_lt_succ_iff] using h2
        exact ⟨by omega, h2', h3, h4, h5⟩
    have hAnR : (sym = it ∧ it ∈ pl ∧ j = k0 ∧ k0 < pl.length) →
        ¬ (k0 + 1 ≤ j ∧ j - (k0 + 1) < rest.length ∧
          rest.getD (j - (k0 + 1)) "" = sym ∧ sym ∈ pl ∧ j < pl.length) := by
      rintro ⟨-, -, h3, -⟩ hx
      exact absurd hx.1 (by omega)
    split_ifs with hA hR hC hC2 hR2 hC3 hC4
    · exact absurd hR (hAnR hA)
    · exact absurd hR (hAnR hA)
    · omega
    · exact absurd (hAC hA) hC2
    · omega
    · exact absurd (hRC hR2) hC3
    · rcases hCAR hC4 with hx | hx
      · exact absurd hx hA
      · exact absurd hx hR2
    · omega

theorem colSum_incr_go {pl : List String} :
    ∀ (items : List String) (sec : Sec) (k0 j : Nat), SecShape pl sec →
      colSum (incr_go sec k0 items) j =
        colSum sec j +
          (if k0 ≤ j ∧ j - k0 < items.length ∧ items.getD (j - k0) "" ∈ pl ∧
              j < pl.length then 1 else 0) := by
  intro items
  induction items with
  | nil =>
    intro sec k0 j h
    rw [incr_go, if_neg (fun hx => absurd hx.2.1 (by simp))]
    omega
  | cons it rest ih =>
    intro sec k0 j h
    rw [incr_go, ih (incr_at sec it k0) (k0 + 1) j (SecShape_incr_at h it k0),
      colSum_incr_at h it k0 j]
    have hAC : (it ∈ pl ∧ j = k0 ∧ k0 < pl.length) →
        (k0 ≤ j ∧ j - k0 < (it :: rest).length ∧ (it :: rest).getD (j - k0) "" ∈ pl ∧
          j < pl.length) := by
      rintro ⟨h1, h2, h3⟩
      have hz : j - k0 = 0 := by omega
      refine ⟨by omega, by simp [hz], ?_, by omega⟩
      rw [hz]
      simpa using h1
    have hRC : (k0 + 1 ≤ j ∧ j - (k0 + 1) < rest.length ∧
        rest.getD (j - (k0 + 1)) "" ∈ pl ∧ j < pl.length) →
        (k0 ≤ j ∧ j - k0 < (it :: rest).length ∧ (it :: rest).getD (j - k0) "" ∈ pl ∧
          j < pl.length) := by
      rintro ⟨h1, h2, h3, h4⟩
      have hidx : j - k0 = (j - (k0 + 1)) + 1 := by omega
      refine ⟨by omega, by simp [hidx]; omega, ?_, h4⟩
      rw [hidx, List.getD_cons_succ]
      exact h3
    have hCAR : (k0 ≤ j ∧ j - k0 < (it :: rest).length ∧
        (it :: rest).getD (j - k0) "" ∈ pl ∧ j < pl.length) →
        (it ∈ pl ∧ j = k0 ∧ k0 < pl.length) ∨
          (k0 + 1 ≤ j ∧ j - (k0 + 1) < rest.length ∧
            rest.getD (j - (k0 + 1)) "" ∈ pl ∧ j < pl.length) := by
      rintro ⟨h1, h2, h3, h4⟩
      by_cases hjk : j = k0
      · left
        have hz : j - k0 = 0 := by omega
        rw [hz] at h3
        exact ⟨by simpa using h3, hjk, by omega⟩
      · right
        have hidx : j - k0 = (j - (k0 + 1)) + 1 := by omega
        rw [hidx, List.getD_cons_succ] at h3
        have h2' : j - (k0 + 1) < rest.length := by
          rw [hidx] at h2
          simpa [Nat.succ_lt_succ_iff] using h2
        exact ⟨by omega, h2', h3, h4⟩
    have hAnR : (it ∈ pl ∧ j = k0 ∧ k0 < pl.length) →
        ¬ (k0 + 1 ≤ j ∧ j - (k0 + 1) < rest.length ∧
          rest.getD (j - (k0 + 1)) "" ∈ pl ∧ j < pl.length) := by
      rintro ⟨-, h2, -⟩ hx
      exact absurd hx.1 (by omega)
    split_ifs with hA hR hC hC2 hR2 hC3 hC4
    · exact absurd hR (hAnR hA)
    · exact absurd hR (hAnR hA)
    · omega
    · exact absurd (hAC hA) hC2
    · omega
    · exact absurd (hRC hR2) hC3
    · rcases hCAR hC4 with hx | hx
      · exact absurd hx hA
      · exact absurd hx hR2
    · omega

theorem cell_le_colSum (sec : Sec) (key : String) (j : Nat) :
    cell sec key j ≤ colSum sec j := by
  induction sec with
  | nil => simp [cell, dictGet_nil, colSum_nil]
  | cons p rest ih =>
    rw [colSum_cons]
    unfold cell
    rw [dictGet_cons]
    by_cases hp : (p.1 == key) = true
    · rw [if_pos hp]
      simp
    · rw [if_neg hp]
      have := ih
      unfold cell at this
      omega

/-! ### The body scan: step characterization and invariants -/

theorem colSum_new_section (pl : List String) (j : Nat) :
    colSum (new_section pl) j = 0 := by
  unfold colSum
  refine List.sum_eq_zero (fun x hx => ?_)
  rcases List.mem_map.mp hx with ⟨p, hp, rfl⟩
  rw [mem_new_section_val hp]
  simp

theorem process_line_none {pl : List String} {ssize : Nat} {st : ParseState} {raw : String}
    (h : candidate_items raw = none) : process_line pl ssize st raw = st := by
  simp [process_line, h]

theorem process_line_wrong_len {pl : List String} {ssize : Nat} {st : ParseState}
    {raw : String} {items : List String} (h : candidate_items raw = some items)
    (hlen : items.length ≠ pl.length) : process_line pl ssize st raw = st := by
  simp [process_line, h, hlen]

theorem process_line_accept {pl : List String} {ssize : Nat} {st : ParseState}
    {raw : String} {items : List String} (h : candidate_items raw = some items)
    (hlen : items.length = pl.length) :
    process_line pl ssize st raw =
      if st.current_count + 1 = ssize then
        ⟨st.sections ++ [(incr_items st.current_section items, st.current_count + 1)],
          new_section pl, 0⟩
      else ⟨st.sections, incr_items st.current_section items, st.current_count + 1⟩ := by
  simp [process_line, h, hlen]

theorem StInv_init (pl : List String) : StInv pl ⟨[], new_section pl, 0⟩ := by
  refine ⟨SecShape_new_section pl, fun j => ?_, by simp⟩
  rw [colSum_new_section]

theorem StInv_process_line {pl : List String} {ssize : Nat} {st : ParseState}
    (raw : String) (h : StInv pl st) : StInv pl (process_line pl ssize st raw) := by
  cases hc : candidate_items raw with
  | none => rw [process_line_none hc]; exact h
  | some items =>
    by_cases hlen : items.length = pl.length
    · rw [process_line_accept hc hlen]
      have hshape : SecShape pl (incr_items st.current_section items) :=
        SecShape_incr_go items st.current_section 0 h.1
      have hcol : ∀ j, colSum (incr_items st.current_section items) j ≤
          st.current_count + 1 := by
        intro j
        rw [incr_items, colSum_incr_go items st.current_section 0 j h.1]
        have := h.2.1 j
        split_ifs <;> omega
      by_cases hseal : st.current_count + 1 = ssize
      · rw [if_pos hseal]
        refine ⟨SecShape_new_section pl, fun j => by rw [colSum_new_section], ?_⟩
        intro p hp
        rcases List.mem_append.mp hp with hp1 | hp1
        · exact h.2.2 p hp1
        · have : p = (incr_items st.current_section items, st.current_count + 1) := by
            simpa using hp1
          rw [this]
          exact ⟨hshape, hcol⟩
      · rw [if_neg hseal]
        exact ⟨hshape, hcol, h.2.2⟩
    · rw [process_line_wrong_len hc hlen]
      exact h

theorem StInv_foldl {pl : List String} {ssize : Nat} (lines : List String)
    (st : ParseState) (h : StInv pl st) :
    StInv pl (lines.foldl (process_line pl ssize) st) := by
  induction lines generalizing st with
  | nil => exact h
  | cons raw rest ih => exact ih _ (StInv_process_line raw h)

theorem StEq_foldl {pl : List String} {ssize : Nat} (lines : List String)
    (st : ParseState) (hinv : StInv pl st) (heq : StEq pl st)
    (hknown : ∀ raw ∈ lines, trial_known pl raw = true) :
    StEq pl (lines.foldl (process_line pl ssize) st) := by
  induction lines generalizing st with
  | nil => exact heq
  | cons raw rest ih =>
    rw [List.foldl_cons]
    refine ih _ (StInv_process_line raw hinv) ?_
      (fun r hr => hknown r (List.mem_cons_of_mem raw hr))
    cases hc : candidate_items raw with
    | none => rw [process_line_none hc]; exact heq
    | some items =>
      by_cases hlen : items.length = pl.length
      · rw [process_line_accept hc hlen]
        have hall : ∀ tok ∈ items, tok ∈ pl := by
          have hk := hknown raw (by simp)
          unfold trial_known at hk
          rw [hc] at hk
          rcases Bool.or_eq_true_iff.mp hk with hk1 | hk1
          · exact absurd hlen (by simpa using hk1)
          · intro tok htok
            simpa using List.all_eq_true.mp hk1 tok htok
        have hcol : ∀ j < pl.length,
            colSum (incr_items st.current_section items) j = st.current_count + 1 := by
          intro j hj
          rw [incr_items, colSum_incr_go items st.current_section 0 j hinv.1]
          have htok : items.getD (j - 0) "" ∈ pl := by
            refine hall _ ?_
            have hjlen : j - 0 < items.length := by omega
            rw [List.getD_eq_getElem items "" hjlen]
            exact List.getElem_mem hjlen
          rw [if_pos ⟨by omega, by omega, htok, hj⟩, heq.1 j hj]
        by_cases hseal : st.current_count + 1 = ssize
        · rw [if_pos hseal]
          refine ⟨fun j hj => by rw [colSum_new_section], ?_⟩
          intro p hp j hj
          rcases List.mem_append.mp hp with hp1 | hp1
          · exact heq.2 p hp1 j hj
          · have : p = (incr_items st.current_section items, st.current_count + 1) := by
              simpa using hp1
            rw [this]
            exact hcol j hj
        · rw [if_neg hseal]
          exact ⟨hcol, heq.2⟩
      · rw [process_line_wrong_len hc hlen]
        exact heq

theorem process_line_not_accepted {pl : List String} {ssize : Nat} {st : ParseState}
    {raw : String} (h : is_accepted pl raw = false) : process_line pl ssize st raw = st := by
  cases hc : candidate_items raw with
  | none => exact process_line_none hc
  | some items =>
    have hlen : items.length ≠ pl.length := by
      unfold is_accepted at h
      rw [hc] at h
      simpa using h
    exact process_line_wrong_len hc hlen

theorem StCnt_process_line {pl : List String} {ssize A : Nat} {st : ParseState}
    (hss : 1 ≤ ssize) (h : StCnt ssize A st) (raw : String) :
    StCnt ssize (A + (if is_accepted pl raw = true then 1 else 0))
      (process_line pl ssize st raw) := by
  by_cases ha : is_accepted pl raw = true
  · rw [if_pos ha]
    obtain ⟨items, hc, hlen⟩ :
        ∃ items, candidate_items raw = some items ∧ items.length = pl.length := by
      cases hc : candidate_items raw with
      | none =>
        unfold is_accepted at ha
        rw [hc] at ha
        cases ha
      | some items =>
        unfold is_accepted at ha
        rw [hc] at ha
        exact ⟨items, rfl, by simpa using ha⟩
    rw [process_line_accept hc hlen]
    have hA : ssize * (A / ssize) + A % ssize = A := Nat.div_add_mod A ssize
    have hcnt : st.current_count = A % ssize := h.2.1
    by_cases hseal : st.current_count + 1 = ssize
    · rw [if_pos hseal]
      have hA1 : A + 1 = ssize * (A / ssize + 1) := by
        have hmod : A % ssize + 1 = ssize := by omega
        calc A + 1 = ssize * (A / ssize) + (A % ssize + 1) := by omega
        _ = ssize * (A / ssize + 1) := by rw [hmod]; ring
      refine ⟨?_, ?_, ?_⟩
      · show (st.sections ++ [_]).length = (A + 1) / ssize
        rw [List.length_append, h.1, hA1,
          Nat.mul_div_cancel_left _ (by omega : 0 < ssize)]
        simp
      · show 0 = (A + 1) % ssize
        rw [hA1, Nat.mul_mod_right]
      · intro p hp
        rcases List.mem_append.mp hp with hp1 | hp1
        · exact h.2.2 p hp1
        · have : p = (incr_items st.current_section items, st.current_count + 1) := by
            simpa using hp1
          rw [this, ← hseal]
    · rw [if_neg hseal]
      have hlt : A % ssize < ssize := Nat.mod_lt _ (by omega)
      have hlt1 : A % ssize + 1 < ssize := by omega
      have hdiv : (A + 1) / ssize = A / ssize := by
        rw [show A + 1 = ssize * (A / ssize) + (A % ssize + 1) by omega,
          Nat.mul_add_div (by omega : 0 < ssize), Nat.div_eq_of_lt hlt1]
        omega
      have hmod2 : (A + 1) % ssize = A % ssize + 1 := by
        rw [show A + 1 = ssize * (A / ssize) + (A % ssize + 1) by omega,
          Nat.mul_add_mod, Nat.mod_eq_of_lt hlt1]
      refine ⟨?_, ?_, h.2.2⟩
      · show st.sections.length = (A + 1) / ssize
        rw [hdiv, h.1]
      · show st.current_count + 1 = (A + 1) % ssize
        omega
  · rw [if_neg ha, process_line_not_accepted (by simpa using ha)]
    simpa using h

theorem StCnt_foldl {pl : List String} {ssize : Nat} (hss : 1 ≤ ssize)
    (lines : List String) (st : ParseState) (A : Nat) (h : StCnt ssize A st) :
    StCnt ssize (A + accepted_count pl lines)
      (lines.foldl (process_line pl ssize) st) := by
  induction lines generalizing st A with
  | nil => simpa [accepted_count] using h
  | cons raw rest ih =>
    rw [List.foldl_cons]
    have hstep := @StCnt_process_line pl ssize A st hss h raw
    have := ih _ _ hstep
    have harith : A + (if is_accepted pl raw = true then 1 else 0) +
        accepted_count pl rest = A + accepted_count pl (raw :: rest) := by
      unfold accepted_count
      rw [List.countP_cons]
      by_cases hr : is_accepted pl raw = true
      · rw [if_pos hr]
        omega
      · rw [if_neg hr]
        omega
    rwa [harith] at this

theorem StCnt_init (ssize : Nat) (pl : List String) :
    StCnt ssize 0 (⟨[], new_section pl, 0⟩ : ParseState) := by
  refine ⟨?_, ?_, by simp⟩
  · simp
  · simp

theorem parse_counted_counts (lines : List String) (ssize : Nat) (hss : 1 ≤ ssize)
    (hpl : header_scan lines ≠ []) :
    (parse_shuffle_counted lines ssize).length =
      accepted_count (header_scan lines) (lines.drop (start_index lines)) / ssize +
        (if accepted_count (header_scan lines) (lines.drop (start_index lines)) % ssize = 0
          then 0 else 1) ∧
    ∀ p ∈ parse_shuffle_counted lines ssize,
      p.2 = ssize ∨
        p.2 = accepted_count (header_scan lines) (lines.drop (start_index lines)) % ssize := by
  have hcnt := @StCnt_foldl (header_scan lines) ssize hss
    (lines.drop (start_index lines)) ⟨[], new_section (header_scan lines), 0⟩ 0
    (StCnt_init ssize (header_scan lines))
  rw [Nat.zero_add] at hcnt
  unfold parse_shuffle_counted
  rw [if_neg hpl]
  set st := (lines.drop (start_index lines)).foldl
    (process_line (header_scan lines) ssize) ⟨[], new_section (header_scan lines), 0⟩
  set A := accepted_count (header_scan lines) (lines.drop (start_index lines))
  unfold finalize
  by_cases hpos : 0 < st.current_count
  · rw [if_pos hpos]
    have hmodpos : ¬ (A % ssize = 0) := by
      have := hcnt.2.1
      omega
    refine ⟨?_, ?_⟩
    · rw [List.length_append, hcnt.1, if_neg hmodpos]
      simp
    · intro p hp
      rcases List.mem_append.mp hp with hp1 | hp1
      · exact Or.inl (hcnt.2.2 p hp1)
      · rw [List.mem_singleton.mp hp1]
        exact Or.inr hcnt.2.1
  · rw [if_neg hpos]
    have hmodz : A % ssize = 0 := by
      have := hcnt.2.1
      omega
    refine ⟨by rw [hcnt.1, if_pos hmodz]; simp, fun p hp => Or.inl (hcnt.2.2 p hp)⟩

theorem parse_counted_inv (lines : List String) (ssize : Nat) :
    ∀ p ∈ parse_shuffle_counted lines ssize,
      SecShape (header_scan lines) p.1 ∧ ∀ j, colSum p.1 j ≤ p.2 := by
  unfold parse_shuffle_counted
  by_cases hpl : header_scan lines = []
  · rw [if_pos hpl]
    intro p hp
    cases hp
  · rw [if_neg hpl]
    intro p hp
    have hinv := @StInv_foldl (header_scan lines) ssize
      (lines.drop (start_index lines)) ⟨[], new_section (header_scan lines), 0⟩
      (StInv_init (header_scan lines))
    unfold finalize at hp
    split at hp
    · rcases List.mem_append.mp hp with hp1 | hp1
      · exact hinv.2.2 p hp1
      · rw [List.mem_singleton.mp hp1]
        exact ⟨hinv.1, hinv.2.1⟩
    · exact hinv.2.2 p hp

theorem parse_counted_colSum_eq (lines : List String) (ssize : Nat)
    (hknown : all_trials_known (header_scan lines) (lines.drop (start_index lines))) :
    ∀ p ∈ parse_shuffle_counted lines ssize,
      ∀ j < (header_scan lines).length, colSum p.1 j = p.2 := by
  unfold parse_shuffle_counted
  by_cases hpl : header_scan lines = []
  · rw [if_pos hpl]
    intro p hp
    cases hp
  · rw [if_neg hpl]
    intro p hp
    have heq := @StEq_foldl (header_scan lines) ssize
      (lines.drop (start_index lines)) ⟨[], new_section (header_scan lines), 0⟩
      (StInv_init (header_scan lines))
      ⟨fun j _ => by rw [colSum_new_section], by simp⟩ hknown
    unfold finalize at hp
    split at hp
    · rcases List.mem_append.mp hp with hp1 | hp1
      · exact heq.2 p hp1
      · rw [List.mem_singleton.mp hp1]
        exact heq.1
    · exact heq.2 p hp

/-! ### Fixed-count bounds -/

theorem fixed_step_some {sec : Sec} {fixed : Dict Nat} {p : Nat × String}
    {d1 : Dict Nat} (h : fixed_step sec fixed p = some d1) :
    ∃ v c, dictGet sec p.2 = some v ∧ v.get? p.1 = some c ∧
      d1 = dictSet fixed p.2 c := by
  unfold fixed_step at h
  split at h
  · exact Option.noConfusion h
  · rename_i v hv
    split at h
    · exact Option.noConfusion h
    · rename_i c hc
      exact ⟨v, c, hv, hc, (Option.some_injective _ h).symm⟩

theorem fixed_fold_bound (sec : Sec) (pl : List String) (B : Nat)
    (hcell : ∀ key j, cell sec key j ≤ B) {fixed : Dict Nat}
    (h : fixed_of_section sec pl = some fixed) : ∀ kv ∈ fixed, kv.2 ≤ B := by
  unfold fixed_of_section at h
  suffices hgen : ∀ (l : List (Nat × String)) (d0 : Dict Nat), (∀ kv ∈ d0, kv.2 ≤ B) →
      ∀ fx, l.foldlM (fixed_step sec) d0 = some fx → ∀ kv ∈ fx, kv.2 ≤ B by
    exact hgen pl.enum [] (by simp) fixed h
  intro l
  induction l with
  | nil =>
    intro d0 h0 fx hf kv hkv
    rw [List.foldlM_nil] at hf
    have hdf : d0 = fx := by simpa using hf
    rw [← hdf] at hkv
    exact h0 kv hkv
  | cons p rest ih =>
    intro d0 h0 fx hf kv hkv
    rw [List.foldlM_cons] at hf
    cases hs : fixed_step sec d0 p with
    | none =>
      rw [hs] at hf
      simp at hf
    | some d1 =>
      rw [hs] at hf
      have hf2 : rest.foldlM (fixed_step sec) d1 = some fx := hf
      rcases fixed_step_some hs with ⟨v, c, hg, hgc, hd1⟩
      have hc : c ≤ B := by
        have hb := hcell p.2 p.1
        rw [cell_eq_of_get hg] at hb
        have hgd : v.getD p.1 0 = c := by
          rw [List.getD_eq_getD_get?, hgc]
          rfl
        rw [hgd] at hb
        exact hb
      refine ih d1 ?_ fx hf2 kv hkv
      intro kv2 hkv2
      rw [hd1] at hkv2
      rcases mem_dictSet hkv2 with h1 | h1
      · exact h0 kv2 h1
      · rw [h1]
        exact hc

theorem compute_fixed_zip (pl : List String) :
    ∀ (counted : List (Sec × Nat)) (fcs : List (Dict Nat)),
      (∀ p ∈ counted, ∀ key j, cell p.1 key j ≤ p.2) →
      compute_fixed_counts (counted.map Prod.fst) pl = some fcs →
      ∀ q ∈ fcs.zip counted, ∀ kv ∈ q.1, kv.2 ≤ q.2.2 := by
  intro counted
  induction counted with
  | nil =>
    intro fcs hinv hfc q hq kv hkv
    rw [List.map_nil] at hfc
    have h0 : compute_fixed_counts ([] : List Sec) pl = some [] := rfl
    rw [h0] at hfc
    rw [← Option.some_injective _ hfc] at hq
    cases hq
  | cons c rest ih =>
    intro fcs hinv hfc q hq kv hkv
    unfold compute_fixed_counts at hfc
    rw [List.map_cons, List.mapM_cons] at hfc
    cases hg : fixed_of_section c.1 pl with
    | none =>
      rw [hg] at hfc
      simp at hfc
    | some fixed =>
      rw [hg] at hfc
      cases hrest : (rest.map Prod.fst).mapM (fun sec => fixed_of_section sec pl) with
      | none =>
        rw [hrest] at hfc
        simp at hfc
      | some rest2 =>
        rw [hrest] at hfc
        have hfcs : fixed :: rest2 = fcs := by simpa using hfc
        rw [← hfcs] at hq
        rcases List.mem_cons.mp hq with hq1 | hq1
        · rw [hq1] at hkv ⊢
          exact fixed_fold_bound c.1 pl c.2
            (fun key j => hinv c (by simp) key j) hg kv hkv
        · exact ih rest2 (fun p hp => hinv p (List.mem_cons_of_mem c hp))
            (by unfold compute_fixed_counts; exact hrest) q hq1 kv hkv

/-! ### Claim C1 -/

/-- C1 is refuted on the code: a trial with an unknown token advances the
accepted-trial counter but increments no cell at the unknown token's
position, so the column sum falls short of the trial count. -/
theorem C1_counterexample :
    ¬ (∀ (lines : List String) (ssize : Nat), ∀ p ∈ parse_shuffle_counted lines ssize,
        ∀ k, k < (header_scan lines).length → colSum p.1 k = p.2) := by
  intro h
  exact absurd
    (h ["l = [A B]", "# start shuffle", "l = [A X]"] 1
      ([("A", [1, 0]), ("B", [0, 0])], 1) (by decide) 1 (by decide))
    (by decide)

/-- C1 (amended): for every log, every section produced by `parse_shuffle_file`
(paired with its accepted-trial count) and every position `k` below `n`, the
sum over all symbols of `section[symbol][k]` is at most the number of trials
accepted into that section, with equality whenever every accepted trial of
the log consists of known tokens only. -/
theorem C1_column_sum (lines : List String) (ssize : Nat) :
    ∀ p ∈ parse_shuffle_counted lines ssize, ∀ k, k < (header_scan lines).length →
      colSum p.1 k ≤ p.2 ∧
      (all_trials_known (header_scan lines) (lines.drop (start_index lines)) →
        colSum p.1 k = p.2) := by
  intro p hp k hk
  exact ⟨(parse_counted_inv lines ssize p hp).2 k,
    fun hknown => parse_counted_colSum_eq lines ssize hknown p hp k hk⟩

theorem C1_column_sum_witness :
    colSum [("A", [0, 1]), ("B", [1, 0])] 0 ≤ 1 ∧
      colSum [("A", [0, 1]), ("B", [1, 0])] 0 = 1 := by
  have h := C1_column_sum ["l = [A B]", "# start shuffle", "l = [B A]"] 1
    ([("A", [0, 1]), ("B", [1, 0])], 1) (by decide) 0 (by decide)
  exact ⟨h.1, h.2 (by decide)⟩

/-! ### Claim C3 -/

/-- C3 is refuted on the code: the trial line `l = [A X]` (unknown token
`X`, correct token count) is not discarded — it changes the parser state,
advancing the trial counter, and with `section_size = 1` it even seals a
section, so the parse output is nonempty where the claim requires it empty. -/
theorem C3_counterexample :
    process_line ["A", "B"] 2 ⟨[], new_section ["A", "B"], 0⟩ "l = [A X]" ≠
        ⟨[], new_section ["A", "B"], 0⟩ ∧
      (parse_shuffle_file ["l = [A B]", "# start shuffle", "l = [A X]"] 1).2 ≠ [] := by
  constructor
  · decide
  · decide

/-- C3 (amended): a trial line with the wrong token count is discarded —
it contributes nothing and does not advance the counter — while a line of
correct token count is accepted even when it contains duplicate or unknown
symbols: it advances the running counter and increments exactly the cells
whose token is in the possibility list. -/
theorem C3_malformed_trials (pl : List String) (ssize : Nat) (st : ParseState)
    (raw : String) (items : List String) (hc : candidate_items raw = some items) :
    (items.length ≠ pl.length → process_line pl ssize st raw = st) ∧
    (items.length = pl.length → SecShape pl st.current_section →
      process_line pl ssize st raw =
        (if st.current_count + 1 = ssize then
          ⟨st.sections ++ [(incr_items st.current_section items, st.current_count + 1)],
            new_section pl, 0⟩
         else ⟨st.sections, incr_items st.current_section items, st.current_count + 1⟩) ∧
      ∀ sym j, cell (incr_items st.current_section items) sym j =
        cell st.current_section sym j +
          (if j < items.length ∧ items.getD j "" = sym ∧ sym ∈ pl ∧ j < pl.length
           then 1 else 0)) := by
  constructor
  · intro hlen
    exact process_line_wrong_len hc hlen
  · intro hlen hshape
    refine ⟨process_line_accept hc hlen, ?_⟩
    intro sym j
    rw [incr_items, cell_incr_go sym items st.current_section 0 j hshape]
    have hiff : (0 ≤ j ∧ j - 0 < items.length ∧ items.getD (j - 0) "" = sym ∧
        sym ∈ pl ∧ j < pl.length) ↔
        (j < items.length ∧ items.getD j "" = sym ∧ sym ∈ pl ∧ j < pl.length) := by
      rw [Nat.sub_zero]
      constructor
      · rintro ⟨-, h2, h3, h4, h5⟩
        exact ⟨h2, h3, h4, h5⟩
      · rintro ⟨h2, h3, h4, h5⟩
        exact ⟨Nat.zero_le j, h2, h3, h4, h5⟩
    rw [if_congr hiff rfl rfl]

theorem C3_malformed_trials_witness :
    process_line ["A", "B"] 5 ⟨[], new_section ["A", "B"], 0⟩ "l = [A B C]" =
        ⟨[], new_section ["A", "B"], 0⟩ ∧
      process_line ["A", "B"] 5 ⟨[], new_section ["A", "B"], 0⟩ "l = [A X]" =
        ⟨[], incr_items (new_section ["A", "B"]) ["A", "X"], 1⟩ ∧
      cell (incr_items (new_section ["A", "B"]) ["A", "X"]) "A" 0 =
        cell (new_section ["A", "B"]) "A" 0 + 1 ∧
      cell (incr_items (new_section ["A", "B"]) ["A", "X"]) "X" 1 =
        cell (new_section ["A", "B"]) "X" 1 := by
  refine ⟨(C3_malformed_trials ["A", "B"] 5 ⟨[], new_section ["A", "B"], 0⟩
    "l = [A B C]" ["A", "B", "C"] (by decide)).1 (by decide), ?_, ?_, ?_⟩
  · have h := (C3_malformed_trials ["A", "B"] 5 ⟨[], new_section ["A", "B"], 0⟩
      "l = [A X]" ["A", "X"] (by decide)).2 (by decide) (by decide)
    have h1 := h.1
    rw [if_neg (by decide)] at h1
    exact h1
  · have h := (C3_malformed_trials ["A", "B"] 5 ⟨[], new_section ["A", "B"], 0⟩
      "l = [A X]" ["A", "X"] (by decide)).2 (by decide) (by decide)
    have h2 := h.2 "A" 0
    rw [if_pos (by decide)] at h2
    exact h2
  · have h := (C3_malformed_trials ["A", "B"] 5 ⟨[], new_section ["A", "B"], 0⟩
      "l = [A X]" ["A", "X"] (by decide)).2 (by decide) (by decide)
    have h2 := h.2 "X" 1
    rw [if_neg (by decide)] at h2
    simpa using h2

/-! ### Claim C5 -/

/-- C5 is refuted on the code: with one accepted identity trial, every
symbol sits at its home index, so the sum over symbols of the fixed counts
is `n` times the section's single trial. -/
theorem C5_counterexample :
    ¬ (∀ (lines : List String) (ssize : Nat) (fcs : List (Dict Nat)),
        compute_fixed_counts (parse_shuffle_file lines ssize).2
          (parse_shuffle_file lines ssize).1 = some fcs →
        ∀ q ∈ fcs.zip (parse_shuffle_counted lines ssize),
          (q.1.map (fun kv => kv.2)).sum ≤ q.2.2) := by
  intro h
  exact absurd
    (h ["l = [A B]", "# start shuffle", "l = [A B]"] 1 [[("A", 1), ("B", 1)]]
      (by decide) ([("A", 1), ("B", 1)], ([("A", [1, 0]), ("B", [0, 1])], 1))
      (by decide))
    (by decide)

/-- C5 (amended): per symbol, the fixed count of a section never exceeds
the number of trials accepted into that section (the sum over all symbols
is bounded by `n` times that count, not by the count itself). -/
theorem C5_fixed_count_bound (lines : List String) (ssize : Nat)
    (fcs : List (Dict Nat))
    (hfc : compute_fixed_counts (parse_shuffle_file lines ssize).2
      (parse_shuffle_file lines ssize).1 = some fcs) :
    ∀ q ∈ fcs.zip (parse_shuffle_counted lines ssize), ∀ kv ∈ q.1, kv.2 ≤ q.2.2 := by
  refine compute_fixed_zip (header_scan lines) (parse_shuffle_counted lines ssize) fcs
    ?_ hfc
  intro p hp key j
  have hinv := parse_counted_inv lines ssize p hp
  exact le_trans (cell_le_colSum p.1 key j) (hinv.2 j)

theorem C5_fixed_count_bound_witness :
    (1 : Nat) ≤ 1 := by
  have h := C5_fixed_count_bound ["l = [A B]", "# start shuffle", "l = [A B]"] 1
    [[("A", 1), ("B", 1)]] (by decide)
    ([("A", 1), ("B", 1)], ([("A", [1, 0]), ("B", [0, 1])], 1)) (by decide)
    ("A", 1) (by decide)
  exact h

/-! ### Claim C6 -/

/-- C6: the parser seals a section exactly when the accepted-trial counter
reaches `section_size` (appending the filled section and starting a fresh
all-zero one), dropped wrong-count lines leave the state untouched, and a
final short section is appended iff at least one trial remains — so with
`A` accepted trials the output holds `A / sectionSize` full sections plus
one short section of `A % sectionSize` trials iff that remainder is
nonzero. -/
theorem C6_section_sealing (lines : List String) (ssize : Nat) (hss : 1 ≤ ssize)
    (hpl : header_scan lines ≠ []) :
    ((parse_shuffle_counted lines ssize).length =
      accepted_count (header_scan lines) (lines.drop (start_index lines)) / ssize +
        (if accepted_count (header_scan lines) (lines.drop (start_index lines)) % ssize = 0
          then 0 else 1)) ∧
    (∀ p ∈ parse_shuffle_counted lines ssize,
      p.2 = ssize ∨
        p.2 = accepted_count (header_scan lines) (lines.drop (start_index lines)) % ssize) ∧
    (∀ (pl : List String) (st : ParseState) (raw : String),
      is_accepted pl raw = false → process_line pl ssize st raw = st) ∧
    (∀ (pl : List String) (st : ParseState) (raw : String) (items : List String),
      candidate_items raw = some items → items.length = pl.length →
        process_line pl ssize st raw =
          if st.current_count + 1 = ssize then
            ⟨st.sections ++ [(incr_items st.current_section items, st.current_count + 1)],
              new_section pl, 0⟩
          else ⟨st.sections, incr_items st.current_section items, st.current_count + 1⟩) := by
  refine ⟨(parse_counted_counts lines ssize hss hpl).1,
    (parse_counted_counts lines ssize hss hpl).2, ?_, ?_⟩
  · intro pl st raw h
    exact process_line_not_accepted h
  · intro pl st raw items hc hlen
    exact process_line_accept hc hlen

theorem C6_section_sealing_witness :
    (parse_shuffle_counted
      ["l = [A B]", "# start shuffle", "l = [A B]", "l = [A B C]", "l = [B A]",
        "l = [A B]"] 2).length = 2 ∧
    process_line ["A", "B"] 2 ⟨[], new_section ["A", "B"], 0⟩ "l = [A B C]" =
      ⟨[], new_section ["A", "B"], 0⟩ := by
  have h := C6_section_sealing
    ["l = [A B]", "# start shuffle", "l = [A B]", "l = [A B C]", "l = [B A]",
      "l = [A B]"] 2 (by decide) (by decide)
  constructor
  · rw [h.1]
    decide
  · exact h.2.2.1 ["A", "B"] ⟨[], new_section ["A", "B"], 0⟩ "l = [A B C]" (by decide)

/-! ### Claim C10 -/

/-- C10: for a duplicate-free possibility list, every section produced by
`parse_shuffle_file` maps exactly the symbols of the possibility list (in
order, hence no foreign key) to vectors of exactly `n` counts, and this
shape is preserved by every trial recorded during the scan. -/
theorem C10_section_shape :
    (∀ (lines : List String) (ssize : Nat),
      (parse_shuffle_file lines ssize).1.Nodup →
      ∀ sec ∈ (parse_shuffle_file lines ssize).2,
        dictKeys sec = (parse_shuffle_file lines ssize).1 ∧
        ∀ p ∈ sec, p.2.length = (parse_shuffle_file lines ssize).1.length) ∧
    (∀ (pl : List String) (sec : Sec) (items : List String),
      SecShape pl sec → SecShape pl (incr_items sec items)) := by
  constructor
  · intro lines ssize hnd sec hsec
    have hsec2 : sec ∈ (parse_shuffle_counted lines ssize).map Prod.fst := hsec
    rcases List.mem_map.mp hsec2 with ⟨p, hp, hps⟩
    have hshape := (parse_counted_inv lines ssize p hp).1
    rw [hps] at hshape
    have hpl : (parse_shuffle_file lines ssize).1 = header_scan lines := rfl
    rw [hpl] at hnd ⊢
    exact ⟨hshape.1.trans (dictKeys_new_section_of_nodup hnd), hshape.2⟩
  · intro pl sec items h
    exact SecShape_incr_go items sec 0 h

theorem C10_section_shape_witness :
    dictKeys [("A", [1, 0]), ("B", [0, 1])] = ["A", "B"] ∧
      SecShape ["A", "B"] (incr_items (new_section ["A", "B"]) ["B", "A"]) := by
  constructor
  · have h := (C10_section_shape.1 ["l = [A B]", "# start shuffle", "l = [A B]"] 1
      (by decide) [("A", [1, 0]), ("B", [0, 1])] (by decide)).1
    exact h.trans (by decide)
  · exact C10_section_shape.2 ["A", "B"] (new_section ["A", "B"]) ["B", "A"]
      (SecShape_new_section ["A", "B"])

theorem cell_incr_items {pl : List String} {sec : Sec} (h : SecShape pl sec)
    (items : List String) (sym : String) (j : Nat) :
    cell (incr_items sec items) sym j =
      cell sec sym j +
        (if j < items.length ∧ items.getD j "" = sym ∧ sym ∈ pl ∧ j < pl.length
         then 1 else 0) := by
  rw [incr_items, cell_incr_go sym items sec 0 j h]
  have hiff : (0 ≤ j ∧ j - 0 < items.length ∧ items.getD (j - 0) "" = sym ∧
      sym ∈ pl ∧ j < pl.length) ↔
      (j < items.length ∧ items.getD j "" = sym ∧ sym ∈ pl ∧ j < pl.length) := by
    rw [Nat.sub_zero]
    constructor
    · rintro ⟨-, h2, h3, h4, h5⟩
      exact ⟨h2, h3, h4, h5⟩
    · rintro ⟨h2, h3, h4, h5⟩
      exact ⟨Nat.zero_le j, h2, h3, h4, h5⟩
  rw [if_congr hiff rfl rfl]

/-! ### Claim C2 -/

/-- C2 is refuted on the code: on the empty possibility list both
`compute_distribution_error_metrics` and `compute_chi_square` compute
`section_size / len(possibility_list)` before their loops and raise
`ZeroDivisionError` (embedded as `none`) instead of returning an empty
mapping. -/
theorem C2_counterexample :
    ¬ (compute_distribution_error_metrics [] 100 [] = some [] ∧
        compute_chi_square [] 100 [] = some []) := by
  intro h
  have h1 := h.1
  rw [show compute_distribution_error_metrics ([] : List Sec) 100 ([] : List String) =
    none from rfl] at h1
  exact Option.noConfusion h1

/-- C2 (amended): a log without a valid possibility-list header parses to
an empty possibility list and no sections without raising, and
`compute_fixed_counts` on that empty result returns an empty sequence; but
`compute_distribution_error_metrics` and `compute_chi_square` raise
`ZeroDivisionError` on the empty possibility list instead of returning an
empty mapping. -/
theorem C2_empty_header (lines : List String) (ssize s2 : Nat)
    (h : header_scan lines = []) :
    parse_shuffle_file lines ssize = ([], []) ∧
      compute_fixed_counts [] [] = some [] ∧
      compute_distribution_error_metrics [] s2 [] = none ∧
      compute_chi_square [] s2 [] = none := by
  refine ⟨?_, rfl, rfl, rfl⟩
  simp [parse_shuffle_file, parse_shuffle_counted, h]

theorem C2_empty_header_witness :
    parse_shuffle_file ["junk line", "l = []"] 3 = ([], []) ∧
      compute_fixed_counts [] [] = some [] ∧
      compute_distribution_error_metrics [] 7 [] = none ∧
      compute_chi_square [] 7 [] = none :=
  C2_empty_header ["junk line", "l = []"] 3 7 (by decide)

/-! ### Claim C4 -/

/-- C4: an unknown token in a correct-length trial increments nothing at
its own position while every other position with a known token is still
counted; concretely, with possibility list `[A, B]`, the trials
`l = [A X]` and `l = [X B]` produce the section `{A: [1, 0], B: [0, 1]}`:
nothing was recorded for `X`, `A` got its position 0, `B` its position 1. -/
theorem C4_unknown_token :
    (∀ (pl : List String) (sec : Sec) (items : List String), SecShape pl sec →
      ∀ sym j, cell (incr_items sec items) sym j =
        cell sec sym j +
          (if j < items.length ∧ items.getD j "" = sym ∧ sym ∈ pl ∧ j < pl.length
           then 1 else 0)) ∧
    parse_shuffle_file ["l = [A B]", "# start shuffle", "l = [A X]", "l = [X B]"] 2 =
      (["A", "B"], [[("A", [1, 0]), ("B", [0, 1])]]) := by
  constructor
  · intro pl sec items hshape sym j
    exact cell_incr_items hshape items sym j
  · decide

theorem C4_unknown_token_witness :
    cell (incr_items (new_section ["A", "B"]) ["A", "X"]) "A" 0 = 1 ∧
      cell (incr_items (new_section ["A", "B"]) ["A", "X"]) "X" 1 = 0 ∧
      cell (incr_items (new_section ["A", "B"]) ["A", "X"]) "B" 1 = 0 := by
  have h := C4_unknown_token.1 ["A", "B"] (new_section ["A", "B"]) ["A", "X"]
    (SecShape_new_section ["A", "B"])
  refine ⟨?_, ?_, ?_⟩
  · have h1 := h "A" 0
    rw [if_pos (by decide), cell_new_section] at h1
    rw [h1]
  · have h2 := h "X" 1
    rw [if_neg (by decide), cell_new_section] at h2
    rw [h2]
  · have h3 := h "B" 1
    rw [if_neg (by decide), cell_new_section] at h3
    rw [h3]

/-! ### Header-scan structure (for C9) -/

theorem header_scan_struct :
    ∀ (lines pl : List String), header_scan lines = pl → pl ≠ [] →
      ∃ pre raw post, lines = pre ++ raw :: post ∧ (∀ l ∈ pre, header_skip l) ∧
        candidate_items raw = some pl := by
  intro lines
  induction lines with
  | nil =>
    intro pl h hne
    exact absurd h.symm hne
  | cons l ls ih =>
    intro pl h hne
    unfold header_scan at h
    by_cases h1 : pyStrip l.toList = []
    · rw [if_pos h1] at h
      rcases ih pl h hne with ⟨pre, raw, post, heq, hpre, hraw⟩
      refine ⟨l :: pre, raw, post, by rw [heq]; rfl, ?_, hraw⟩
      intro x hx
      rcases List.mem_cons.mp hx with hx1 | hx1
      · rw [hx1]
        exact Or.inl h1
      · exact hpre x hx1
    · rw [if_neg h1] at h
      by_cases h2 : pyStartsWith (pyStrip l.toList) "#".toList = true
      · rw [if_pos h2] at h
        by_cases h3 : pyHasInfix "start shuffle".toList (pyStrip l.toList) = true
        · rw [if_pos h3] at h
          exact absurd h.symm hne
        · rw [if_neg h3] at h
          rcases ih pl h hne with ⟨pre, raw, post, heq, hpre, hraw⟩
          refine ⟨l :: pre, raw, post, by rw [heq]; rfl, ?_, hraw⟩
          intro x hx
          rcases List.mem_cons.mp hx with hx1 | hx1
          · rw [hx1]
            exact Or.inr (Or.inl ⟨h2, by simpa using h3⟩)
          · exact hpre x hx1
      · rw [if_neg h2] at h
        by_cases h4 : pyStartsWith (pyStrip l.toList) "l = [".toList = true
        · rw [if_pos h4] at h
          by_cases h5 : bracket_content (pyStrip l.toList) = []
          · rw [if_pos h5] at h
            exact absurd h.symm hne
          · rw [if_neg h5] at h
            refine ⟨[], l, ls, rfl, by simp, ?_⟩
            unfold candidate_items
            rw [if_neg h1, if_neg (by simpa using h2), if_pos h4, if_neg h5, h]
        · rw [if_neg h4] at h
          rcases ih pl h hne with ⟨pre, raw, post, heq, hpre, hraw⟩
          refine ⟨l :: pre, raw, post, by rw [heq]; rfl, ?_, hraw⟩
          intro x hx
          rcases List.mem_cons.mp hx with hx1 | hx1
          · rw [hx1]
            exact Or.inr (Or.inr ⟨by simpa using h2, by simpa using h4⟩)
          · exact hpre x hx1

theorem header_skip_candidate {raw : String} (h : header_skip raw) :
    candidate_items raw = none := by
  unfold candidate_items
  rcases h with h1 | ⟨h2a, h2b⟩ | ⟨h3a, h3b⟩
  · rw [if_pos h1]
  · have h1' : ¬ (pyStrip raw.toList = []) := by
      intro hh
      rw [hh] at h2a
      exact absurd h2a (by decide)
    rw [if_neg h1', if_pos h2a]
  · by_cases h1 : pyStrip raw.toList = []
    · rw [if_pos h1]
    · rw [if_neg h1, if_neg (by rw [h3a]; simp), if_neg (by rw [h3b]; simp)]

theorem foldl_skip {pl : List String} {ssize : Nat} (pre : List String)
    (hpre : ∀ l ∈ pre, header_skip l) (rest : List String) (st : ParseState) :
    (pre ++ rest).foldl (process_line pl ssize) st =
      rest.foldl (process_line pl ssize) st := by
  induction pre generalizing st with
  | nil => rfl
  | cons l tl ih =>
    rw [List.cons_append, List.foldl_cons,
      process_line_none (header_skip_candidate (hpre l (by simp)))]
    exact ih (fun x hx => hpre x (List.mem_cons_of_mem l hx)) st

theorem start_index_zero {lines : List String}
    (h : ∀ l ∈ lines, pyHasInfix "start shuffle".toList l.toList = false) :
    start_index lines = 0 := by
  unfold start_index
  have hnone : lines.findIdx?
      (fun l => pyHasInfix "start shuffle".toList l.toList) = none := by
    rw [List.findIdx?_eq_none_iff]
    intro x hx
    simpa using h x hx
  rw [hnone]

theorem cell_incr_items_self {pl : List String} (hnd : pl.Nodup) (i j : Nat)
    (hi : i < pl.length) (hj : j < pl.length) :
    cell (incr_items (new_section pl) pl) (pl.getD i "") j =
      if i = j then 1 else 0 := by
  rw [cell_incr_items (SecShape_new_section pl), cell_new_section]
  by_cases hij : i = j
  · have hcond : j < pl.length ∧ pl.getD j "" = pl.getD i "" ∧
        pl.getD i "" ∈ pl ∧ j < pl.length := by
      refine ⟨hj, by rw [hij], ?_, hj⟩
      rw [List.getD_eq_getElem pl "" hi]
      exact List.getElem_mem hi
    rw [if_pos hcond, if_pos hij]
  · have hcond : ¬ (j < pl.length ∧ pl.getD j "" = pl.getD i "" ∧
        pl.getD i "" ∈ pl ∧ j < pl.length) := by
      rintro ⟨-, hgd, -, -⟩
      rw [List.getD_eq_getElem pl "" hj, List.getD_eq_getElem pl "" hi] at hgd
      exact hij (((List.Nodup.getElem_inj_iff hnd).mp hgd).symm)
    rw [if_neg hcond, if_neg hij]

/-! ### Claim C9 -/

/-- C9: with a valid possibility-list header but no "start shuffle" marker
anywhere, the body scan starts at the first line of the file; the header
line itself is a candidate whose tokens are exactly the possibility list,
so it is accepted as a trial and bumps each symbol's count at its home
index from 0 to 1. -/
theorem C9_no_marker (lines : List String) (ssize : Nat)
    (hns : ∀ l ∈ lines, pyHasInfix "start shuffle".toList l.toList = false)
    (hpl : header_scan lines ≠ []) (hnd : (header_scan lines).Nodup) :
    start_index lines = 0 ∧
    ∃ pre raw post, lines = pre ++ raw :: post ∧
      candidate_items raw = some (header_scan lines) ∧
      parse_shuffle_counted lines ssize =
        finalize (post.foldl (process_line (header_scan lines) ssize)
          (process_line (header_scan lines) ssize
            ⟨[], new_section (header_scan lines), 0⟩ raw)) ∧
      process_line (header_scan lines) ssize
          ⟨[], new_section (header_scan lines), 0⟩ raw =
        (if 1 = ssize then
          ⟨[(incr_items (new_section (header_scan lines)) (header_scan lines), 1)],
            new_section (header_scan lines), 0⟩
         else
          ⟨[], incr_items (new_section (header_scan lines)) (header_scan lines), 1⟩) ∧
      ∀ i j, i < (header_scan lines).length → j < (header_scan lines).length →
        cell (incr_items (new_section (header_scan lines)) (header_scan lines))
          ((header_scan lines).getD i "") j = if i = j then 1 else 0 := by
  have hsi : start_index lines = 0 := start_index_zero hns
  refine ⟨hsi, ?_⟩
  rcases header_scan_struct lines (header_scan lines) rfl hpl with
    ⟨pre, raw, post, heq, hpre, hraw⟩
  refine ⟨pre, raw, post, heq, hraw, ?_, ?_, ?_⟩
  · unfold parse_shuffle_counted
    rw [if_neg hpl, hsi, List.drop_zero]
    set pl0 := header_scan lines with hpl0
    rw [heq, foldl_skip pre hpre, List.foldl_cons]
  · have hacc := @process_line_accept (header_scan lines) ssize
      ⟨[], new_section (header_scan lines), 0⟩ raw (header_scan lines) hraw rfl
    simpa using hacc
  · intro i j hi hj
    exact cell_incr_items_self hnd i j hi hj

theorem C9_no_marker_witness :
    start_index ["l = [A B]", "l = [B A]"] = 0 ∧
      cell (incr_items (new_section ["A", "B"]) ["A", "B"]) "A" 0 = 1 ∧
      cell (incr_items (new_section ["A", "B"]) ["A", "B"]) "B" 0 = 0 := by
  have h := C9_no_marker ["l = [A B]", "l = [B A]"] 5 (by decide) (by decide) (by decide)
  refine ⟨h.1, ?_, ?_⟩
  · rcases h.2 with ⟨pre, raw, post, -, -, -, -, hcell⟩
    have hc := hcell 0 0 (by decide) (by decide)
    rw [if_pos rfl] at hc
    rw [show header_scan ["l = [A B]", "l = [B A]"] = ["A", "B"] from by decide] at hc
    simpa using hc
  · rcases h.2 with ⟨pre, raw, post, -, -, -, -, hcell⟩
    have hc := hcell 1 0 (by decide) (by decide)
    rw [if_neg (by decide)] at hc
    rw [show header_scan ["l = [A B]", "l = [B A]"] = ["A", "B"] from by decide] at hc
    simpa using hc

/-! ### Error-metric refinement (for C7) -/

theorem mapM_eq_map_of_some {α β : Type} (f : α → Option β) (g : α → β) :
    ∀ l : List α, (∀ a ∈ l, f a = some (g a)) → l.mapM f = some (l.map g) := by
  intro l
  induction l with
  | nil => intro h; rfl
  | cons a tl ih =>
    intro h
    rw [List.mapM_cons, h a (by simp)]
    show (tl.mapM f >>= fun bs => pure (g a :: bs)) = some ((a :: tl).map g)
    rw [ih (fun b hb => h b (List.mem_cons_of_mem a hb))]
    rfl

theorem secShape_get {pl : List String} {sec : Sec} (h : SecShape pl sec) {key : String}
    (hkey : key ∈ pl) : ∃ v, dictGet sec key = some v ∧ v.length = pl.length := by
  have hc := (secShape_contains_iff_mem h key).mpr hkey
  have hs := dictGet_isSome_iff.mpr hc
  cases hg : dictGet sec key with
  | none =>
    rw [hg] at hs
    simp at hs
  | some v =>
    rcases dictGet_some_mem hg with ⟨q, hq, -, hqv⟩
    exact ⟨v, rfl, by rw [← hqv]; exact h.2 q hq⟩

theorem error_of_eq {pl : List String} {sec : Sec} (h : SecShape pl sec) (e : ℚ)
    (key : String) (pos : Nat) (hkey : key ∈ pl) (hpos : pos < pl.length) :
    error_of sec e key pos = some (cellQ sec key pos - e) := by
  rcases secShape_get h hkey with ⟨v, hg, hvlen⟩
  have hlt : pos < v.length := by omega
  have hget : v[pos]? = some v[pos] := List.getElem?_eq_getElem hlt
  have hcell : cellQ sec key pos = (v[pos] : ℚ) := by
    rw [cellQ, cell_eq_of_get hg, List.getD_eq_getElem v 0 hlt]
  simp [error_of, hg, List.get?_eq_getElem?, hget, hcell]

theorem errors_at_eq {pl : List String} {sections : List Sec}
    (hwf : ∀ sec ∈ sections, SecShape pl sec) (e : ℚ) (key : String) (pos : Nat)
    (hkey : key ∈ pl) (hpos : pos < pl.length) :
    errors_at sections e key pos = some (spec_series sections e key pos) := by
  unfold errors_at spec_series
  exact mapM_eq_map_of_some _ _ sections
    (fun sec hsec => error_of_eq (hwf sec hsec) e key pos hkey hpos)

theorem ite_pyMax (es : List ℚ) : (if es ≠ [] then pyMax es else 0) = es.max?.getD 0 := by
  cases es with
  | nil => simp
  | cons x xs => simp [pyMax, List.max?]

theorem ite_pyMin (es : List ℚ) : (if es ≠ [] then pyMin es else 0) = es.min?.getD 0 := by
  cases es with
  | nil => simp
  | cons x xs => simp [pyMin, List.min?]

theorem ite_pyMaxR (xs : List ℝ) :
    (if xs ≠ [] then pyMaxR xs else 0) = xs.max?.getD 0 := by
  cases xs with
  | nil => simp
  | cons x tl => simp [pyMaxR, List.max?]

theorem ite_pyMean (es : List ℚ) :
    (if es ≠ [] then pyMean es else 0) = es.sum / (es.length : ℚ) := by
  cases es with
  | nil => simp
  | cons x xs => simp [pyMean]

theorem ite_stdev_eq (sections : List Sec) (e : ℚ) (key : String) (j : Nat) :
    (if spec_series sections e key j ≠ [] then
      (if 1 < (spec_series sections e key j).length then
        pyStdev (spec_series sections e key j) else 0) else 0) =
      spec_posStd sections e key j := by
  have hlen : (spec_series sections e key j).length = sections.length := by
    simp [spec_series]
  unfold spec_posStd
  by_cases h2 : 2 ≤ sections.length
  · have hne : spec_series sections e key j ≠ [] :=
      List.ne_nil_of_length_pos (by omega)
    rw [if_pos h2, if_pos hne, if_pos (by omega)]
    unfold pyStdev sampleVar pyMean spec_posMean
    rw [hlen]
  · rw [if_neg h2]
    by_cases hne : spec_series sections e key j = []
    · simp [hne]
    · rw [if_pos hne, if_neg (by omega)]

theorem foldlM_dictSet_some {α : Type} (pl : List String) (F : String → Option α)
    (G : String → α) (hFG : ∀ k ∈ pl, F k = some (G k)) :
    ∀ d0 : Dict α,
      pl.foldlM (fun m key => (F key).map (fun v => dictSet m key v)) d0 =
        some (pl.foldl (fun m key => dictSet m key (G key)) d0) := by
  induction pl with
  | nil => intro d0; rfl
  | cons k ks ih =>
    intro d0
    rw [List.foldlM_cons, hFG k (by simp)]
    show ks.foldlM (fun m key => (F key).map (fun v => dictSet m key v))
        (dictSet d0 k (G k)) = _
    rw [List.foldl_cons]
    exact ih (fun x hx => hFG x (List.mem_cons_of_mem k hx)) (dictSet d0 k (G k))

theorem pyMaxByAbs_spec :
    ∀ (xs : List ℚ) (x : ℚ),
      ∃ j0, j0 < (x :: xs).length ∧
        xs.foldl (fun acc y => if |acc| < |y| then y else acc) x = (x :: xs).getD j0 0 ∧
        (∀ j < (x :: xs).length, |(x :: xs).getD j 0| ≤ |(x :: xs).getD j0 0|) ∧
        ∀ j < j0, |(x :: xs).getD j 0| < |(x :: xs).getD j0 0| := by
  intro xs
  induction xs with
  | nil =>
    intro x
    refine ⟨0, by simp, by simp, ?_, by omega⟩
    intro j hj
    have hj0 : j = 0 := by simpa using hj
    subst hj0
    simp
  | cons y ys ih =>
    intro x
    rw [List.foldl_cons]
    rcases ih (if |x| < |y| then y else x) with ⟨j0, hj0, hval, hub, hstrict⟩
    by_cases hxy : |x| < |y|
    · rw [if_pos hxy] at hval hub hstrict ⊢
      refine ⟨j0 + 1, by simpa using hj0, ?_, ?_, ?_⟩
      · rw [hval, List.getD_cons_succ]
      · intro j hj
        rw [List.getD_cons_succ]
        cases j with
        | zero =>
          rw [List.getD_cons_zero]
          exact le_of_lt (lt_of_lt_of_le hxy (hub 0 (by simp)))
        | succ m =>
          rw [List.getD_cons_succ]
          exact hub m (by simpa using hj)
      · intro j hj
        rw [List.getD_cons_succ]
        cases j with
        | zero =>
          rw [List.getD_cons_zero]
          exact lt_of_lt_of_le hxy (hub 0 (by simp))
        | succ m =>
          rw [List.getD_cons_succ]
          exact hstrict m (by omega)
    · rw [if_neg hxy] at hval hub hstrict ⊢
      push_neg at hxy
      cases hj00 : j0 with
      | zero =>
        rw [hj00] at hval
        refine ⟨0, by simp, ?_, ?_, by omega⟩
        · rw [hval]
          simp
        · intro j hj
          rw [List.getD_cons_zero]
          cases j with
          | zero => simp
          | succ m =>
            rw [List.getD_cons_succ]
            cases m with
            | zero =>
              rw [List.getD_cons_zero]
              have h0 := hub 0 (by simp)
              rw [List.getD_cons_zero] at h0
              simpa using hxy
            | succ m2 =>
              have hm := hub (m2 + 1) (by simpa using hj)
              rw [List.getD_cons_succ] at hm
              rw [hj00, List.getD_cons_zero] at hm
              rw [List.getD_cons_succ]
              exact hm
      | succ m0 =>
        rw [hj00] at hval hub hstrict hj0
        refine ⟨m0 + 2, by simp at hj0 ⊢; omega, ?_, ?_, ?_⟩
        · rw [hval, List.getD_cons_succ, List.getD_cons_succ, List.getD_cons_succ]
        · intro j hj
          rw [List.getD_cons_succ, List.getD_cons_succ]
          cases j with
          | zero =>
            rw [List.getD_cons_zero]
            have h0 := hub 0 (by simp)
            rw [List.getD_cons_zero, List.getD_cons_succ] at h0
            exact h0
          | succ m =>
            cases m with
            | zero =>
              rw [List.getD_cons_succ, List.getD_cons_zero]
              have h0 := hub 0 (by simp)
              rw [List.getD_cons_zero, List.getD_cons_succ] at h0
              exact le_trans hxy h0
            | succ m2 =>
              rw [List.getD_cons_succ, List.getD_cons_succ]
              have hm := hub (m2 + 1) (by simpa using hj)
              rw [List.getD_cons_succ, List.getD_cons_succ] at hm
              exact hm
        · intro j hj
          rw [List.getD_cons_succ, List.getD_cons_succ]
          cases j with
          | zero =>
            rw [List.getD_cons_zero]
            have h0 := hstrict 0 (by omega)
            rw [List.getD_cons_zero, List.getD_cons_succ] at h0
            exact h0
          | succ m =>
            cases m with
            | zero =>
              rw [List.getD_cons_succ, List.getD_cons_zero]
              have h0 := hstrict 0 (by omega)
              rw [List.getD_cons_zero, List.getD_cons_succ] at h0
              exact lt_of_le_of_lt hxy h0
            | succ m2 =>
              rw [List.getD_cons_succ, List.getD_cons_succ]
              have hm := hstrict (m2 + 1) (by omega)
              rw [List.getD_cons_succ, List.getD_cons_succ] at hm
              exact hm

theorem metrics_for_key_eq {pl : List String} {sections : List Sec}
    (hwf : ∀ sec ∈ sections, SecShape pl sec) (e : ℚ) (key : String)
    (hkey : key ∈ pl) (hn : pl ≠ []) :
    metrics_for_key sections e pl.length key =
      some { max := spec_overallMax sections e key pl.length,
             min := spec_overallMin sections e key pl.length,
             mean := pyMaxByAbs ((List.range pl.length).map (spec_posMean sections e key)),
             std := spec_overallStd sections e key pl.length } := by
  unfold metrics_for_key
  rw [mapM_eq_map_of_some (errors_at sections e key) (spec_series sections e key)
    (List.range pl.length)
    (fun j hj => errors_at_eq hwf e key j hkey (List.mem_range.mp hj))]
  rw [Option.map_some']
  have hmaxl : ((List.range pl.length).map (spec_series sections e key)).map
      (fun es => if es ≠ [] then pyMax es else 0) =
      (List.range pl.length).map (spec_posMax sections e key) := by
    rw [List.map_map]
    refine List.map_congr_left (fun j _ => ?_)
    show (if spec_series sections e key j ≠ [] then pyMax (spec_series sections e key j)
      else 0) = _
    rw [ite_pyMax]
    rfl
  have hminl : ((List.range pl.length).map (spec_series sections e key)).map
      (fun es => if es ≠ [] then pyMin es else 0) =
      (List.range pl.length).map (spec_posMin sections e key) := by
    rw [List.map_map]
    refine List.map_congr_left (fun j _ => ?_)
    show (if spec_series sections e key j ≠ [] then pyMin (spec_series sections e key j)
      else 0) = _
    rw [ite_pyMin]
    rfl
  have hmeanl : ((List.range pl.length).map (spec_series sections e key)).map
      (fun es => if es ≠ [] then pyMean es else 0) =
      (List.range pl.length).map (spec_posMean sections e key) := by
    rw [List.map_map]
    refine List.map_congr_left (fun j _ => ?_)
    show (if spec_series sections e key j ≠ [] then pyMean (spec_series sections e key j)
      else 0) = _
    rw [ite_pyMean]
    rfl
  have hstdl : ((List.range pl.length).map (spec_series sections e key)).map
      (fun es => if es ≠ [] then (if 1 < es.length then pyStdev es else 0) else 0) =
      (List.range pl.length).map (spec_posStd sections e key) := by
    rw [List.map_map]
    refine List.map_congr_left (fun j _ => ?_)
    exact ite_stdev_eq sections e key j
  have hrne : (List.range pl.length).map (spec_posMean sections e key) ≠ [] := by
    intro hc
    have hc2 : pl.length = 0 := by simpa using congrArg List.length hc
    exact hn (List.length_eq_zero.mp hc2)
  rw [hmaxl, hminl, hmeanl, hstdl]
  simp only [ne_eq, hrne, not_false_eq_true, if_true, ite_pyMax, ite_pyMin, ite_pyMaxR]
  rfl

/-! ### Claim C7 -/

/-- C7: `compute_distribution_error_metrics` computes, per symbol, exactly
the spec's reductions: per position the max / min / mean / sample standard
deviation (dividing by `count - 1`, `0` below two samples) of the errors
`observed - sectionSize/n` across sections, then `overall_max` = max of
per-position maxes, `overall_min` = min of per-position mins, `overall_std`
= max of per-position stds, and `overall_mean` = the per-position mean of
largest absolute value with ties broken towards the lowest position index. -/
theorem C7_error_metrics (sections : List Sec) (ssize : Nat) (pl : List String)
    (hpl : pl ≠ []) (hwf : ∀ sec ∈ sections, SecShape pl sec) :
    ∃ m, compute_distribution_error_metrics sections ssize pl = some m ∧
      ∀ key ∈ pl, ∃ em, dictGet m key = some em ∧
        em.max = spec_overallMax sections ((ssize : ℚ) / (pl.length : ℚ)) key pl.length ∧
        em.min = spec_overallMin sections ((ssize : ℚ) / (pl.length : ℚ)) key pl.length ∧
        em.std = spec_overallStd sections ((ssize : ℚ) / (pl.length : ℚ)) key pl.length ∧
        ∃ j0, j0 < pl.length ∧
          em.mean = spec_posMean sections ((ssize : ℚ) / (pl.length : ℚ)) key j0 ∧
          (∀ j < pl.length,
            |spec_posMean sections ((ssize : ℚ) / (pl.length : ℚ)) key j| ≤ |em.mean|) ∧
          ∀ j < j0,
            |spec_posMean sections ((ssize : ℚ) / (pl.length : ℚ)) key j| < |em.mean| := by
  set G : String → ErrorMetric := fun k =>
    { max := spec_overallMax sections ((ssize : ℚ) / (pl.length : ℚ)) k pl.length,
      min := spec_overallMin sections ((ssize : ℚ) / (pl.length : ℚ)) k pl.length,
      mean := pyMaxByAbs ((List.range pl.length).map
        (spec_posMean sections ((ssize : ℚ) / (pl.length : ℚ)) k)),
      std := spec_overallStd sections ((ssize : ℚ) / (pl.length : ℚ)) k pl.length }
    with hGdef
  have hG : ∀ key ∈ pl, metrics_for_key sections ((ssize : ℚ) / (pl.length : ℚ))
      pl.length key = some (G key) := fun key hkey =>
    metrics_for_key_eq hwf ((ssize : ℚ) / (pl.length : ℚ)) key hkey hpl
  have hm : compute_distribution_error_metrics sections ssize pl =
      some (pl.foldl (fun m key => dictSet m key (G key)) []) := by
    unfold compute_distribution_error_metrics
    rw [if_neg (fun h0 => hpl (List.length_eq_zero.mp h0))]
    exact foldlM_dictSet_some pl _ _ hG []
  refine ⟨_, hm, ?_⟩
  intro key hkey
  refine ⟨G key, ?_, rfl, rfl, rfl, ?_⟩
  · rw [dictGet_foldl_dictSet G pl [] key, if_pos hkey]
  · rw [show (G key).mean = pyMaxByAbs ((List.range pl.length).map
      (spec_posMean sections ((ssize : ℚ) / (pl.length : ℚ)) key)) from rfl]
    cases hrange : (List.range pl.length).map
      (spec_posMean sections ((ssize : ℚ) / (pl.length : ℚ)) key) with
    | nil =>
      exfalso
      have : pl.length = 0 := by simpa using congrArg List.length hrange
      exact hpl (List.length_eq_zero.mp this)
    | cons x xs =>
      have hlen : (x :: xs).length = pl.length := by
        rw [← hrange]
        simp
      have hgetD : ∀ j < pl.length, (x :: xs).getD j 0 =
          spec_posMean sections ((ssize : ℚ) / (pl.length : ℚ)) key j := by
        intro j hj
        have h2 : ((List.range pl.length).map
            (spec_posMean sections ((ssize : ℚ) / (pl.length : ℚ)) key)).getD j 0 =
            (x :: xs).getD j 0 := by
          rw [hrange]
        rw [← h2, List.getD_eq_getElem _ 0 (by simpa using hj), List.getElem_map,
          List.getElem_range]
      rcases pyMaxByAbs_spec xs x with ⟨j0, hj0, hval, hub, hstrict⟩
      have hred : pyMaxByAbs (x :: xs) =
          xs.foldl (fun acc y => if |acc| < |y| then y else acc) x := rfl
      refine ⟨j0, by omega, ?_, ?_, ?_⟩
      · rw [hred, hval, hgetD j0 (by omega)]
      · intro j hj
        rw [hred, hval, ← hgetD j hj]
        exact hub j (by omega)
      · intro j hj
        rw [hred, hval, ← hgetD j (by omega)]
        exact hstrict j hj

theorem C7_error_metrics_witness :
    ((compute_distribution_error_metrics [[("A", [1, 0]), ("B", [0, 1])]] 2
        ["A", "B"]).bind (fun m => dictGet m "A")).map (fun em => em.max) =
      some (spec_overallMax [[("A", [1, 0]), ("B", [0, 1])]]
        (((2 : ℕ) : ℚ) / ((["A", "B"] : List String).length : ℚ)) "A"
        (["A", "B"] : List String).length) := by
  rcases C7_error_metrics [[("A", [1, 0]), ("B", [0, 1])]] 2 ["A", "B"]
    (by decide) (by decide) with ⟨m, hm, hkeys⟩
  rcases hkeys "A" (by decide) with ⟨em, hget, hmax, -⟩
  rw [hm, Option.some_bind, hget, Option.map_some', hmax]

/-! ### Chi-square refinement (for C8) -/

theorem zip_replicate {α β : Type} :
    ∀ (l : List α) (e : β), l.zip (List.replicate l.length e) = l.map (fun o => (o, e)) := by
  intro l e
  induction l with
  | nil => rfl
  | cons x xs ih =>
    rw [List.length_cons, List.replicate_succ, List.zip_cons_cons, List.map_cons, ih]

theorem chi2_stat_replicate (A : List ℚ) (e : ℚ) :
    chi2_stat A (List.replicate A.length e) = (A.map (fun o => (o - e) ^ 2 / e)).sum := by
  unfold chi2_stat
  rw [zip_replicate, List.map_map]
  rfl

theorem length_flatten_const {α : Type} (n : Nat) :
    ∀ l : List (List α), (∀ x ∈ l, x.length = n) → l.flatten.length = n * l.length := by
  intro l
  induction l with
  | nil => intro h; simp
  | cons x xs ih =>
    intro h
    rw [List.flatten_cons, List.length_append, h x (by simp),
      ih (fun y hy => h y (List.mem_cons_of_mem x hy)), List.length_cons,
      Nat.mul_succ]
    omega

theorem chi2_sf_zero (df : Nat) (hdf : 1 ≤ df) : chi2_sf df 0 = 1 := by
  unfold chi2_sf
  have ha : (0 : ℝ) < (df : ℝ) / 2 := by
    have h1 : (1 : ℝ) ≤ (df : ℝ) := by exact_mod_cast hdf
    linarith
  have hr : (0 : ℝ) < (1 : ℝ) / 2 := by norm_num
  rw [ProbabilityTheory.gammaCDFReal_eq_lintegral ha hr 0]
  rw [lintegral_Iic_eq_lintegral_Iio_add_Icc _ (le_refl (0 : ℝ)),
    ProbabilityTheory.lintegral_gammaPDF_of_nonpos (le_refl (0 : ℝ))]
  have hIcc : ∫⁻ x in Set.Icc (0 : ℝ) 0,
      ProbabilityTheory.gammaPDF ((df : ℝ) / 2) (1 / 2) x = 0 := by
    rw [Set.Icc_self]
    exact MeasureTheory.setLIntegral_measure_zero _ _ Real.volume_singleton
  rw [hIcc]
  simp

theorem foldlM_dictSet_some2 {α β : Type} (pl : List String) (F : String → Option β)
    (H : String → β → α) (G : String → α)
    (hFG : ∀ k ∈ pl, ∃ b, F k = some b ∧ H k b = G k) :
    ∀ d0 : Dict α,
      pl.foldlM (fun m key => (F key).map (fun b => dictSet m key (H key b))) d0 =
        some (pl.foldl (fun m key => dictSet m key (G key)) d0) := by
  induction pl with
  | nil => intro d0; rfl
  | cons k ks ih =>
    intro d0
    rcases hFG k (by simp) with ⟨b, hFb, hHb⟩
    rw [List.foldlM_cons, hFb]
    show ks.foldlM (fun m key => (F key).map (fun b => dictSet m key (H key b)))
        (dictSet d0 k (H k b)) = _
    rw [hHb, List.foldl_cons]
    exact ih (fun x hx => hFG x (List.mem_cons_of_mem k hx)) (dictSet d0 k (G k))

/-! ### Claim C8 -/

/-- C8: per symbol, `compute_chi_square` flattens the per-position counts
across all sections into one observed sequence of length
`n × numberOfSections`, pairs it with an all-`sectionSize/n` expected
sequence, and returns `chi2 = Σ (observed − expected)² / expected` with
`length − 1` degrees of freedom; on perfectly uniform data (every count
equal to `sectionSize/n`) every symbol gets `chi2 = 0` and `pValue = 1`. -/
theorem C8_chi_square (sections : List Sec) (ssize : Nat) (pl : List String)
    (hpl : pl ≠ []) (hwf : ∀ sec ∈ sections, SecShape pl sec) :
    ∃ m, compute_chi_square sections ssize pl = some m ∧
      ∀ key ∈ pl, ∃ r, dictGet m key = some r ∧
        (spec_observed sections key).length = pl.length * sections.length ∧
        r.chi2 = ((spec_observed sections key).map
          (fun o => (o - (ssize : ℚ) / (pl.length : ℚ)) ^ 2 /
            ((ssize : ℚ) / (pl.length : ℚ)))).sum ∧
        r.p_value = chi2_sf (pl.length * sections.length - 1) ((r.chi2 : ℚ) : ℝ) ∧
        ((∀ sec ∈ sections, ∀ k ∈ pl, ∀ j, j < pl.length →
            cellQ sec k j = (ssize : ℚ) / (pl.length : ℚ)) →
          2 ≤ pl.length * sections.length →
          r.chi2 = 0 ∧ r.p_value = 1) := by
  set e : ℚ := (ssize : ℚ) / (pl.length : ℚ) with hedef
  set G : String → ChiResult := fun k =>
    chisquare (spec_observed sections k)
      (List.replicate ((sections.map (fun sec => (dictGet sec k).getD [])).flatten.length)
        e) with hGdef
  have hlenflat : ∀ k ∈ pl,
      (sections.map (fun sec => (dictGet sec k).getD [])).flatten.length =
        pl.length * sections.length := by
    intro k hk
    rw [length_flatten_const pl.length _ ?_, List.length_map]
    intro x hx
    rcases List.mem_map.mp hx with ⟨sec, hsec, hxe⟩
    rcases secShape_get (hwf sec hsec) hk with ⟨v, hg, hvlen⟩
    rw [← hxe, hg]
    exact hvlen
  have hobslen : ∀ k ∈ pl,
      (spec_observed sections k).length = pl.length * sections.length := by
    intro k hk
    rw [spec_observed, List.length_map]
    exact hlenflat k hk
  have hm : compute_chi_square sections ssize pl =
      some (pl.foldl (fun m key => dictSet m key (G key)) []) := by
    unfold compute_chi_square
    rw [if_neg (fun h0 => hpl (List.length_eq_zero.mp h0))]
    refine foldlM_dictSet_some2 pl _ _ G ?_ []
    intro k hk
    refine ⟨sections.map (fun sec => (dictGet sec k).getD []), ?_, rfl⟩
    refine mapM_eq_map_of_some _ _ sections (fun sec hsec => ?_)
    rcases secShape_get (hwf sec hsec) hk with ⟨v, hg, -⟩
    rw [hg]
    rfl
  refine ⟨_, hm, ?_⟩
  intro key hkey
  refine ⟨G key, ?_, hobslen key hkey, ?_, ?_, ?_⟩
  · rw [dictGet_foldl_dictSet G pl [] key, if_pos hkey]
  · show chi2_stat (spec_observed sections key) _ = _
    have hrep : (sections.map (fun sec => (dictGet sec key).getD [])).flatten.length =
        (spec_observed sections key).length := by
      rw [spec_observed, List.length_map]
    rw [hrep, chi2_stat_replicate]
  · show chi2_sf ((spec_observed sections key).length - 1) _ = _
    rw [hobslen key hkey]
    rfl
  · intro hu hdf
    have hall : ∀ o ∈ spec_observed sections key, o = e := by
      intro o ho
      rcases List.mem_map.mp ho with ⟨c, hc, hce⟩
      rcases List.mem_flatten.mp hc with ⟨v, hv, hcv⟩
      rcases List.mem_map.mp hv with ⟨sec, hsec, hve⟩
      rcases secShape_get (hwf sec hsec) hkey with ⟨w, hg, hwlen⟩
      have hvw : v = w := by rw [← hve, hg]; rfl
      rcases List.mem_iff_getElem.mp (hvw ▸ hcv) with ⟨j, hj, hje⟩
      have := hu sec hsec key hkey j (by omega)
      rw [cellQ, cell_eq_of_get hg, List.getD_eq_getElem w 0 hj, hje] at this
      rw [← hce, this]
    have hchi : (G key).chi2 = 0 := by
      show chi2_stat (spec_observed sections key) _ = 0
      have hrep : (sections.map (fun sec => (dictGet sec key).getD [])).flatten.length =
          (spec_observed sections key).length := by
        rw [spec_observed, List.length_map]
      rw [hrep, chi2_stat_replicate]
      refine List.sum_eq_zero (fun x hx => ?_)
      rcases List.mem_map.mp hx with ⟨o, ho, hoe⟩
      rw [← hoe, hall o ho]
      simp
    refine ⟨hchi, ?_⟩
    show chi2_sf ((spec_observed sections key).length - 1) (((G key).chi2 : ℚ) : ℝ) = 1
    rw [hchi, hobslen key hkey]
    rw [show (((0 : ℚ) : ℝ)) = (0 : ℝ) by norm_num]
    exact chi2_sf_zero _ (by omega)

theorem C8_chi_square_witness :
    ((compute_chi_square [[("A", [1, 1]), ("B", [1, 1])]] 2 ["A", "B"]).bind
        (fun m => dictGet m "A")).map (fun r => r.chi2) = some 0 ∧
      ((compute_chi_square [[("A", [1, 1]), ("B", [1, 1])]] 2 ["A", "B"]).bind
        (fun m => dictGet m "A")).map (fun r => r.p_value) = some 1 := by
  have huni : ∀ sec ∈ [[("A", [1, 1]), ("B", [1, 1])]], ∀ k ∈ ["A", "B"],
      ∀ j, j < (["A", "B"] : List String).length →
        cellQ sec k j = ((2 : ℕ) : ℚ) / ((["A", "B"] : List String).length : ℚ) := by
    intro sec hsec k hk j hj
    have hsec2 : sec = [("A", [1, 1]), ("B", [1, 1])] := by simpa using hsec
    subst hsec2
    have hj2 : j < 2 := by simpa using hj
    have hcell : cell [("A", [1, 1]), ("B", [1, 1])] k j = 1 := by
      rcases List.mem_cons.mp hk with rfl | hk2
      · interval_cases j <;> decide
      · have hkB : k = "B" := by simpa using hk2
        subst hkB
        interval_cases j <;> decide
    rw [cellQ, hcell]
    norm_num
  rcases C8_chi_square [[("A", [1, 1]), ("B", [1, 1])]] 2 ["A", "B"]
    (by decide) (by decide) with ⟨m, hm, hkeys⟩
  rcases hkeys "A" (by decide) with ⟨r, hget, -, -, -, huniC⟩
  rcases huniC huni (by decide) with ⟨hchi, hp⟩
  constructor
  · rw [hm, Option.some_bind, hget, Option.map_some', hchi]
  · rw [hm, Option.some_bind, hget, Option.map_some', hp]

end Shuffle
